import Mathlib

/-!
Verification of the rocSPARSE csrmm device kernels
(`library/src/level3/csrmm_device.h`).

The five device functions are embedded shallowly:

* per-lane arithmetic — tile buffering into shared scratch, the zero
  padding of incomplete tiles, fused multiply-add accumulation, and the
  final store — is transcribed directly from the loop bodies of the
  source;
* the parallel launch is summarized per output element.  In the `nn`,
  `nt` and scale kernels every logical output element is read and
  written by exactly one lane (given the host-validated leading
  dimensions), so the aggregate effect on the flat `C` buffer maps each
  position to the value its unique owning lane stores.  The scale
  kernel is additionally modelled thread by thread, as a fold of the
  per-thread writes over the launch grid, to settle its frame property.
  In the atomic `tn`/`tt` kernels an output element receives one
  atomic-add contribution per (source row, nonzero, output column)
  triple that targets it; ring addition is associative and commutative,
  so the aggregate effect adds the sum of those contributions.

Matrices are flat `List` buffers indexed exactly as the source indexes
raw pointers; out-of-range reads yield the default value `0` (the
source relies on the host layer to keep every access in bounds).  The
machine scalar type `T` is modelled by an arbitrary commutative ring
`R` (exact arithmetic), and `rocsparse_conj` by an explicit function
parameter `conj`.  Machine integers never overflow on host-validated
shapes, so indices are plain `Nat`; `x - idx_base` uses truncated `Nat`
subtraction, which agrees with the source whenever the host-validated
precondition `idx_base ≤ x` holds.
-/

namespace Rocsparse

/-- Transpose mode, `rocsparse_operation`. -/
inductive Operation where
| none
| transpose
| conjugateTranspose
deriving DecidableEq

/-- Dense storage order, `rocsparse_order`. -/
inductive Order where
| column
| row
deriving DecidableEq

variable {R : Type} [CommRing R] [DecidableEq R]

/-- Fused multiply-add: `rocsparse_fma(p, q, r) = p * q + r` in exact
arithmetic. -/
def rocsparse_fma (p q r : R) : R := p * q + r

/-- Rewrite every element of a buffer as a function of its linear position
and old value; describes a kernel's aggregate effect on a flat buffer. -/
def mapWithIdx {α : Type} (f : Nat → α → α) : Nat → List α → List α
| _, [] => []
| p, a :: l => f p a :: mapWithIdx f (p + 1) l

theorem length_mapWithIdx {α : Type} (f : Nat → α → α) :
    ∀ (p : Nat) (l : List α), (mapWithIdx f p l).length = l.length
| _, [] => rfl
| p, _ :: l => by simp [mapWithIdx, length_mapWithIdx f (p + 1) l]

theorem getD_mapWithIdx {α : Type} (f : Nat → α → α) (d : α) :
    ∀ (p : Nat) (l : List α) (i : Nat), i < l.length →
      (mapWithIdx f p l).getD i d = f (p + i) (l.getD i d)
| _, [], _, h => absurd h (by simp)
| p, a :: l, 0, _ => by simp [mapWithIdx]
| p, a :: l, i + 1, h => by
    have ih := getD_mapWithIdx f d (p + 1) l i (by simpa using h)
    simpa [mapWithIdx, Nat.add_assoc, Nat.add_comm 1 i] using ih

/-- Trip count of the tile loop `for (j = rs; j < re; j += WF)`, for
`0 < WF`. -/
def numChunks (WF rs re : Nat) : Nat := (re - rs + (WF - 1)) / WF

/-- Start indices `rs, rs + WF, rs + 2 * WF, …` of the tile-loop
iterations. -/
def tileStarts (WF rs re : Nat) : List Nat := List.range' rs (numChunks WF rs re) WF

/-- Linear index of logical element `(r, c)` of a dense buffer: the
source's `row + col * ldc` for column order and `row * ldc + col` for row
order. -/
def cIdx (order : Order) (ldc r c : Nat) : Nat :=
  match order with
  | Order.column => r + c * ldc
  | Order.row => r * ldc + c

/-- Logical row owning buffer position `p` (inverse of `cIdx` on valid
leading dimensions). -/
def cRow (order : Order) (ldc p : Nat) : Nat :=
  match order with
  | Order.column => p % ldc
  | Order.row => p / ldc

/-- Logical column owning buffer position `p` (inverse of `cIdx` on valid
leading dimensions). -/
def cCol (order : Order) (ldc p : Nat) : Nat :=
  match order with
  | Order.column => p / ldc
  | Order.row => p % ldc

/-- Final store of the row-parallel kernels (source lines 103–127 and
211–235): `beta == 0` overwrites with `alpha * sum`, otherwise the store
is `fma(beta, C_old, alpha * sum)`. -/
def csrmm_store (alpha beta sum cOld : R) : R :=
  if beta = 0 then alpha * sum else rocsparse_fma beta cOld (alpha * sum)

/-- One iteration of the nonzero-tile loop of `csrmmnn_general_device`
(source lines 69–100), seen by the lane owning output column `col` with
`colB = col * ldb`: slot `i` of the shared tile holds column
`csr_col_ind[j + i] - idx_base` and value `csr_val[j + i]` (conjugated
when `trans_A` is conjugate-transpose) when `j + i < row_end`, and the
padding column `0` / value `0` otherwise; the lane then folds
`fma(shared_val[i], B[shared_col[i] + colB], sum)` over the tile,
conjugating the `B` value when `trans_B` is conjugate-transpose. -/
def csrmmnn_chunk (conj : R → R) (trans_A trans_B : Operation)
    (csr_col_ind : List Nat) (csr_val B : List R)
    (idx_base row_end colB WF j : Nat) (sum : R) : R :=
  (List.range WF).foldl (fun s i =>
    let k := j + i
    let sc : Nat := if k < row_end then csr_col_ind.getD k 0 - idx_base else 0
    let sv : R :=
      if trans_A = Operation.conjugateTranspose then
        (if k < row_end then conj (csr_val.getD k 0) else 0)
      else
        (if k < row_end then csr_val.getD k 0 else 0)
    if trans_B = Operation.conjugateTranspose then
      rocsparse_fma sv (conj (B.getD (sc + colB) 0)) s
    else
      rocsparse_fma sv (B.getD (sc + colB) 0) s) sum

/-- Accumulated dot product of one row/column pair of
`csrmmnn_general_device`: the tile loop of source lines 69–101 starting
from `sum = 0`, with `rs = csr_row_ptr[row] - idx_base` and
`re = csr_row_ptr[row + 1] - idx_base`. -/
def csrmmnn_sum (conj : R → R) (trans_A trans_B : Operation)
    (csr_col_ind : List Nat) (csr_val B : List R)
    (idx_base rs re colB WF : Nat) : R :=
  (tileStarts WF rs re).foldl
    (fun s j => csrmmnn_chunk conj trans_A trans_B csr_col_ind csr_val B
      idx_base re colB WF j s) 0

/-- Aggregate effect of `csrmmnn_general_device` (source lines 32–129) on
the `C` buffer.  The grid-stride loop over rows and the `blockIdx.y`
tiling of columns make exactly one lane own each logical element
`(row, col)` with `row < M`, `col < N` (the host launches enough column
tiles to cover `N`); that lane stores
`csrmm_store alpha beta sum C_old` at `cIdx order ldc row col`, reading
no other element of `C`.  Buffer positions owned by no lane — in
particular leading-dimension padding — keep their old value. -/
def csrmmnn_general_device (conj : R → R) (WF : Nat)
    (trans_A trans_B : Operation) (M N : Nat) (alpha : R)
    (csr_row_ptr csr_col_ind : List Nat) (csr_val B : List R) (ldb : Nat)
    (beta : R) (C : List R) (ldc : Nat) (order : Order) (idx_base : Nat) :
    List R :=
  mapWithIdx (fun p cOld =>
    let row := cRow order ldc p
    let col := cCol order ldc p
    if row < M ∧ col < N then
      csrmm_store alpha beta
        (csrmmnn_sum conj trans_A trans_B csr_col_ind csr_val B idx_base
          (csr_row_ptr.getD row 0 - idx_base)
          (csr_row_ptr.getD (row + 1) 0 - idx_base)
          (col * ldb) WF)
        cOld
    else cOld) 0 C

/-- One iteration of the nonzero-tile loop of `csrmmnt_general_device`
(source lines 174–208), seen by the lane owning output column `col` of
the current column tile: slot `i` of the shared tile holds
`ldb * (csr_col_ind[j + i] - idx_base)` and the (possibly conjugated)
value when `j + i < row_end`, and `0` / `0` otherwise; the lane folds
`fma(shared_val[i], val_B, sum)` over the whole tile, where `val_B` is
`B[col + shared_col[i]]` guarded by `col < ncol` (lanes past the column
range read `0`), conjugated when `trans_B` is conjugate-transpose. -/
def csrmmnt_chunk (conj : R → R) (trans_A trans_B : Operation)
    (csr_col_ind : List Nat) (csr_val B : List R)
    (idx_base ldb row_end ncol col WF j : Nat) (sum : R) : R :=
  (List.range WF).foldl (fun s i =>
    let k := j + i
    let sc : Nat := if k < row_end then ldb * (csr_col_ind.getD k 0 - idx_base) else 0
    let sv : R :=
      if trans_A = Operation.conjugateTranspose then
        (if k < row_end then conj (csr_val.getD k 0) else 0)
      else
        (if k < row_end then csr_val.getD k 0 else 0)
    if trans_B = Operation.conjugateTranspose then
      rocsparse_fma sv (conj (if col < ncol then B.getD (col + sc) 0 else 0)) s
    else
      rocsparse_fma sv (if col < ncol then B.getD (col + sc) 0 else 0) s) sum

/-- Accumulated dot product of one row/column pair of
`csrmmnt_general_device`: the tile loop of source lines 174–209 starting
from `sum = 0`. -/
def csrmmnt_sum (conj : R → R) (trans_A trans_B : Operation)
    (csr_col_ind : List Nat) (csr_val B : List R)
    (idx_base ldb rs re ncol col WF : Nat) : R :=
  (tileStarts WF rs re).foldl
    (fun s j => csrmmnt_chunk conj trans_A trans_B csr_col_ind csr_val B
      idx_base ldb re ncol col WF j s) 0

/-- Aggregate effect of `csrmmnt_general_device` (source lines 132–237) on
the `C` buffer.  One wavefront owns each row `< M` (lanes with
`row ≥ M` exit early; the host launches enough wavefronts to cover `M`)
and walks the output columns `col = l + lid` for
`l = offset, offset + WF, …  < ncol`; exactly the columns
`offset ≤ col < ncol` pass the store guard `col < ncol`, each reached by
exactly one `(l, lid)` pair.  Every such element is stored as
`csrmm_store alpha beta sum C_old`; all other buffer positions keep
their old value. -/
def csrmmnt_general_device (conj : R → R) (WF : Nat)
    (trans_A trans_B : Operation) (offset ncol M : Nat) (alpha : R)
    (csr_row_ptr csr_col_ind : List Nat) (csr_val B : List R) (ldb : Nat)
    (beta : R) (C : List R) (ldc : Nat) (order : Order) (idx_base : Nat) :
    List R :=
  mapWithIdx (fun p cOld =>
    let row := cRow order ldc p
    let col := cCol order ldc p
    if row < M ∧ offset ≤ col ∧ col < ncol then
      csrmm_store alpha beta
        (csrmmnt_sum conj trans_A trans_B csr_col_ind csr_val B idx_base ldb
          (csr_row_ptr.getD row 0 - idx_base)
          (csr_row_ptr.getD (row + 1) 0 - idx_base)
          ncol col WF)
        cOld
    else cOld) 0 C

/-- One thread of `csrmm_scale_device` (source lines 240–260): thread
`(gidx, gidy)` returns early unless `gidx < m` and `gidy < n`, and
otherwise multiplies in place the buffer element at `gidx + ld * gidy`
(column order) or `gidy + ld * gidx` (row order) by `beta`. -/
def csrmm_scale_thread (m n : Nat) (beta : R) (ld : Nat) (order : Order)
    (data : List R) (t : Nat × Nat) : List R :=
  if m ≤ t.1 ∨ n ≤ t.2 then data
  else
    match order with
    | Order.column => data.set (t.1 + ld * t.2) (data.getD (t.1 + ld * t.2) 0 * beta)
    | Order.row => data.set (t.2 + ld * t.1) (data.getD (t.2 + ld * t.1) 0 * beta)

/-- All `(gidx, gidy)` thread coordinates of a scale-kernel launch with
global extents `gx × gy`. -/
def scaleGrid (gx gy : Nat) : List (Nat × Nat) :=
  (List.range gx).flatMap (fun x => (List.range gy).map (fun y => (x, y)))

/-- `csrmm_scale_device` (source lines 240–260) launched on a `gx × gy`
grid of threads.  Distinct in-range threads touch distinct buffer
positions (given the host-validated leading dimension), so the parallel
execution equals this fold of the per-thread writes in any order. -/
def csrmm_scale_device (gx gy m n : Nat) (beta : R) (data : List R)
    (ld : Nat) (order : Order) : List R :=
  (scaleGrid gx gy).foldl (csrmm_scale_thread m n beta ld order) data

/-- Number of occurrences of the coordinate pair `(x, y)` in a thread
list. -/
def pairCount (x y : Nat) : List (Nat × Nat) → Nat
| [] => 0
| u :: ts => (if u = (x, y) then 1 else 0) + pairCount x y ts

/-- Nonzero positions `csr_row_ptr[row] - idx_base ≤ j <
csr_row_ptr[row + 1] - idx_base` of one stored row. -/
def rowRange (csr_row_ptr : List Nat) (idx_base row : Nat) : List Nat :=
  List.range' (csr_row_ptr.getD row 0 - idx_base)
    ((csr_row_ptr.getD (row + 1) 0 - idx_base)
      - (csr_row_ptr.getD row 0 - idx_base))

/-- Sum of the atomic-add contributions that one `csrmmtn_general_device`
launch (source lines 266–343) makes to the output element of logical row
`orow` and column `n < N`.  For each stored row `row < K` of `A`
(reached by the grid-stride loop), lane data `shared_B = B[row + n * ldb]`
(conjugated when `trans_B` is conjugate-transpose; the `cid < N` guard
holds since `n < N`), and for each nonzero `j` of that row with
`csr_col_ind[j] - idx_base = orow`, the kernel atomically adds
`val * shared_B` with `val = alpha * csr_val[j]` (conjugated when
`trans_A` is conjugate-transpose). -/
def csrmmtn_add (conj : R → R) (trans_A trans_B : Operation) (K : Nat)
    (alpha : R) (csr_row_ptr csr_col_ind : List Nat) (csr_val B : List R)
    (ldb idx_base orow n : Nat) : R :=
  ((List.range K).map (fun row =>
    ((rowRange csr_row_ptr idx_base row).map (fun j =>
      if csr_col_ind.getD j 0 - idx_base = orow then
        (if trans_A = Operation.conjugateTranspose then
          alpha * conj (csr_val.getD j 0)
        else
          alpha * csr_val.getD j 0)
        *
        (if trans_B = Operation.conjugateTranspose then
          conj (B.getD (row + n * ldb) 0)
        else
          B.getD (row + n * ldb) 0)
      else 0)).sum)).sum

/-- Aggregate effect of `csrmmtn_general_device` (source lines 266–343) on
the `C` buffer: every output element of logical column `n < N` receives,
by atomic adds, the sum of all contributions targeting it (the host
launches enough column tiles to cover `N`; `beta` is accepted but unused
by the source, pre-scaling being the scale kernel's job).  Positions
whose logical row index `orow` matches no stored column index receive an
empty contribution sum.  The model assumes the host-validated bounds
`csr_col_ind[j] - idx_base < M ≤ ldc`, under which distinct logical
elements occupy distinct buffer positions. -/
def csrmmtn_general_device (conj : R → R) (trans_A trans_B : Operation)
    (K N : Nat) (alpha : R) (csr_row_ptr csr_col_ind : List Nat)
    (csr_val B : List R) (ldb : Nat) (beta : R) (C : List R) (ldc : Nat)
    (order : Order) (idx_base : Nat) : List R :=
  mapWithIdx (fun p cOld =>
    let orow := cRow order ldc p
    let n := cCol order ldc p
    if n < N then
      cOld + csrmmtn_add conj trans_A trans_B K alpha csr_row_ptr
        csr_col_ind csr_val B ldb idx_base orow n
    else cOld) 0 C

/-- Sum of the atomic-add contributions of one `csrmmtt_general_device`
launch (source lines 348–425) to the output element `(orow, n)`, `n < N`:
identical to `csrmmtn_add` except that `B` is addressed as
`B[ldb * row + cid]` (source line 385/389) instead of
`B[row + cid * ldb]` (source line 303/307). -/
def csrmmtt_add (conj : R → R) (trans_A trans_B : Operation) (K : Nat)
    (alpha : R) (csr_row_ptr csr_col_ind : List Nat) (csr_val B : List R)
    (ldb idx_base orow n : Nat) : R :=
  ((List.range K).map (fun row =>
    ((rowRange csr_row_ptr idx_base row).map (fun j =>
      if csr_col_ind.getD j 0 - idx_base = orow then
        (if trans_A = Operation.conjugateTranspose then
          alpha * conj (csr_val.getD j 0)
        else
          alpha * csr_val.getD j 0)
        *
        (if trans_B = Operation.conjugateTranspose then
          conj (B.getD (ldb * row + n) 0)
        else
          B.getD (ldb * row + n) 0)
      else 0)).sum)).sum

/-- Aggregate effect of `csrmmtt_general_device` (source lines 348–425) on
the `C` buffer; see `csrmmtn_general_device`, from which the source
differs only in `B`'s addressing. -/
def csrmmtt_general_device (conj : R → R) (trans_A trans_B : Operation)
    (K N : Nat) (alpha : R) (csr_row_ptr csr_col_ind : List Nat)
    (csr_val B : List R) (ldb : Nat) (beta : R) (C : List R) (ldc : Nat)
    (order : Order) (idx_base : Nat) : List R :=
  mapWithIdx (fun p cOld =>
    let orow := cRow order ldc p
    let n := cCol order ldc p
    if n < N then
      cOld + csrmmtt_add conj trans_A trans_B K alpha csr_row_ptr
        csr_col_ind csr_val B ldb idx_base orow n
    else cOld) 0 C

/-- Row-pointer indices read by `csrmmnn_general_device`: the
grid-stride loop (source lines 62–65) processes every `row < M` and reads
`csr_row_ptr[row]` and `csr_row_ptr[row + 1]`. -/
def csrmmnn_row_ptr_reads (M : Nat) : List Nat :=
  (List.range M).flatMap (fun row => [row, row + 1])

/-- Row-pointer indices read by `csrmmnt_general_device`: lanes with
`row ≥ M` exit before any read (source lines 158–167), so every
processed `row < M` reads `csr_row_ptr[row]` and `csr_row_ptr[row + 1]`. -/
def csrmmnt_row_ptr_reads (M : Nat) : List Nat :=
  (List.range M).flatMap (fun row => [row, row + 1])

/-- Row-pointer indices read by `csrmmtn_general_device`: the
grid-stride loop (source lines 296–299) processes every `row < K` and
reads `csr_row_ptr[row]` and `csr_row_ptr[row + 1]`. -/
def csrmmtn_row_ptr_reads (K : Nat) : List Nat :=
  (List.range K).flatMap (fun row => [row, row + 1])

/-- Row-pointer indices read by `csrmmtt_general_device` (source lines
378–381): every `row < K` reads `csr_row_ptr[row]` and
`csr_row_ptr[row + 1]`. -/
def csrmmtt_row_ptr_reads (K : Nat) : List Nat :=
  (List.range K).flatMap (fun row => [row, row + 1])

/-- Indices into `B` read by the tile loop of `csrmmnn_general_device`
for one row (`rs`/`re` bounds) and one owned column (`colB = col * ldb`):
slot `i` of the tile starting at `j` reads
`B[shared_col[i] + colB]` where `shared_col[i]` is the corrected column
index for a real nonzero and the padding index `0` otherwise (source
lines 75, 94, 98). -/
def csrmmnn_B_reads (ci : List Nat) (base WF rs re colB : Nat) : List Nat :=
  (tileStarts WF rs re).flatMap (fun j => (List.range WF).map (fun i =>
    (if j + i < re then ci.getD (j + i) 0 - base else 0) + colB))

/-- Indices into `B` read by the tile loop of `csrmmnt_general_device`
for one row and one owned column `col < ncol`: slot `i` of the tile
starting at `j` reads `B[col + shared_col[i]]` where `shared_col[i]` is
`ldb * (csr_col_ind[j + i] - idx_base)` for a real nonzero and the
padding index `0` otherwise (source lines 180, 198, 204). -/
def csrmmnt_B_reads (ci : List Nat) (base WF ldb rs re col : Nat) : List Nat :=
  (tileStarts WF rs re).flatMap (fun j => (List.range WF).map (fun i =>
    col + (if j + i < re then ldb * (ci.getD (j + i) 0 - base) else 0)))

/-- Conjugation policy shared by all kernels: a value participates
conjugated exactly when the corresponding transpose mode is
conjugate-transpose. -/
def opVal (conj : R → R) (t : Operation) (x : R) : R :=
  if t = Operation.conjugateTranspose then conj x else x

/-- The `A` value lane arithmetic uses for nonzero position `k`:
`csr_val[k]`, conjugated exactly when `trans_A` is conjugate-transpose. -/
def aEntry (conj : R → R) (trans_A : Operation) (csr_val : List R) (k : Nat) : R :=
  opVal conj trans_A (csr_val.getD k 0)

/-- Entry `(r, k)` of the sparse matrix densified: the sum of the stored
values of row `r` whose index-base-corrected column index is `k`. -/
def csrEntry (csr_row_ptr csr_col_ind : List Nat) (csr_val : List R)
    (idx_base r k : Nat) : R :=
  ((rowRange csr_row_ptr idx_base r).map (fun j =>
    if csr_col_ind.getD j 0 - idx_base = k then csr_val.getD j 0 else 0)).sum

/-- Reference computation, following the spec's words: the triple-loop
`alpha * op(A) * op(B) + beta * C` evaluated at output element `(r, c)`,
where `Aent`/`Bent` give the operand entries in the layout the kernel
under comparison was handed, and conjugate-transpose modes conjugate the
participating values. -/
def referenceGemmEntry (conj : R → R) (trans_A trans_B : Operation) (K : Nat)
    (alpha beta : R) (Aent Bent : Nat → Nat → R) (cOld : R) (r c : Nat) : R :=
  alpha * ((List.range K).map (fun k =>
    opVal conj trans_A (Aent r k) * opVal conj trans_B (Bent k c))).sum
  + beta * cOld

/-- Injectivity-side validity of a leading dimension: the extent along
the fast axis fits inside `ld`. -/
def ldInj (order : Order) (rows cols ld : Nat) : Prop :=
  match order with
  | Order.column => rows ≤ ld
  | Order.row => cols ≤ ld

instance (order : Order) (rows cols ld : Nat) :
    Decidable (ldInj order rows cols ld) := by
  unfold ldInj; cases order <;> infer_instance

/-- Full validity of a dense buffer: valid leading dimension and a buffer
long enough for the `rows × cols` logical region. -/
def ldOK (order : Order) (rows cols ld len : Nat) : Prop :=
  ldInj order rows cols ld ∧
  (match order with
   | Order.column => ld * cols ≤ len
   | Order.row => ld * rows ≤ len)

instance (order : Order) (rows cols ld len : Nat) :
    Decidable (ldOK order rows cols ld len) := by
  unfold ldOK; cases order <;> exact instDecidableAnd

theorem cIdx_lt (order : Order) {rows cols ld len r c : Nat}
    (h : ldOK order rows cols ld len) (hr : r < rows) (hc : c < cols) :
    cIdx order ld r c < len := by
  rcases h with ⟨h1, h2⟩
  cases order with
  | column =>
    simp only [ldInj] at h1; simp only at h2
    have : r + c * ld < ld * cols := by
      calc r + c * ld < ld + c * ld := by omega
      _ = (c + 1) * ld := by ring
      _ ≤ cols * ld := Nat.mul_le_mul_right ld (by omega)
      _ = ld * cols := Nat.mul_comm _ _
    exact lt_of_lt_of_le this h2
  | row =>
    simp only [ldInj] at h1; simp only at h2
    have : r * ld + c < ld * rows := by
      calc r * ld + c < r * ld + ld := by omega
      _ = (r + 1) * ld := by ring
      _ ≤ rows * ld := Nat.mul_le_mul_right ld (by omega)
      _ = ld * rows := Nat.mul_comm _ _
    exact lt_of_lt_of_le this h2

theorem cRow_cIdx (order : Order) {rows cols ld r c : Nat}
    (h : ldInj order rows cols ld) (hr : r < rows) (hc : c < cols) :
    cRow order ld (cIdx order ld r c) = r := by
  cases order with
  | column =>
    simp only [ldInj] at h
    simp [cRow, cIdx, Nat.add_mul_mod_self_right, Nat.mod_eq_of_lt (by omega : r < ld)]
  | row =>
    simp only [ldInj] at h
    have hld : 0 < ld := by omega
    simp [cRow, cIdx, Nat.mul_comm r ld, Nat.mul_add_div hld,
      Nat.div_eq_of_lt (by omega : c < ld)]

theorem cCol_cIdx (order : Order) {rows cols ld r c : Nat}
    (h : ldInj order rows cols ld) (hr : r < rows) (hc : c < cols) :
    cCol order ld (cIdx order ld r c) = c := by
  cases order with
  | column =>
    simp only [ldInj] at h
    have hld : 0 < ld := by omega
    simp [cCol, cIdx, Nat.add_mul_div_right _ _ hld,
      Nat.div_eq_of_lt (by omega : r < ld)]
  | row =>
    simp only [ldInj] at h
    simp [cCol, cIdx, Nat.mul_comm r ld, Nat.mul_add_mod,
      Nat.mod_eq_of_lt (by omega : c < ld)]

theorem cIdx_injOn (order : Order) {rows cols ld r c r' c' : Nat}
    (h : ldInj order rows cols ld) (hr : r < rows) (hc : c < cols)
    (hr' : r' < rows) (hc' : c' < cols)
    (heq : cIdx order ld r c = cIdx order ld r' c') : r = r' ∧ c = c' := by
  constructor
  · have := cRow_cIdx order h hr hc
    have h2 := cRow_cIdx order h hr' hc'
    rw [← this, heq, h2]
  · have := cCol_cIdx order h hr hc
    have h2 := cCol_cIdx order h hr' hc'
    rw [← this, heq, h2]

theorem foldl_add_eq_sum (t : Nat → R) :
    ∀ (l : List Nat) (acc : R), l.foldl (fun a k => t k + a) acc = (l.map t).sum + acc
| [], acc => by simp
| k :: l, acc => by
  simp only [List.foldl_cons, List.map_cons, List.sum_cons,
    foldl_add_eq_sum t l (t k + acc)]
  ring

theorem sum_range_ite (f : Nat → R) (c : Nat) :
    ∀ K : Nat, ((List.range K).map (fun k => if c = k then f k else 0)).sum
      = if c < K then f c else 0
| 0 => by simp
| K + 1 => by
  rw [List.range_succ, List.map_append, List.sum_append, sum_range_ite f c K]
  rcases Nat.lt_trichotomy c K with h | h | h
  · simp [h, Nat.lt_succ_of_lt h, Nat.ne_of_lt h]
  · subst h; simp
  · have h1 : ¬c < K := by omega
    have h2 : ¬c < K + 1 := by omega
    have h3 : c ≠ K := by omega
    simp [h1, h2, h3]

theorem conj_list_sum (conj : R → R) (h0 : conj 0 = 0)
    (hadd : ∀ x y : R, conj (x + y) = conj x + conj y) :
    ∀ l : List R, conj l.sum = (l.map conj).sum
| [] => by simpa using h0
| x :: l => by
  simp only [List.sum_cons, List.map_cons, hadd, conj_list_sum conj h0 hadd l]

theorem getD_map_zero (f : R → R) (h0 : f 0 = 0) (l : List R) (i : Nat) :
    (l.map f).getD i 0 = f (l.getD i 0) := by
  simp only [List.getD_eq_getElem?_getD, List.getElem?_map]
  cases h : l[i]? <;> simp [h0]

theorem range_foldl_guard (g : Nat → R → R) (e : Nat) :
    ∀ (w j : Nat) (acc : R),
      (List.range w).foldl (fun s i => if j + i < e then g (j + i) s else s) acc
        = (List.range' j (min w (e - j))).foldl (fun s k => g k s) acc
| 0, j, acc => by simp
| w + 1, j, acc => by
  rw [List.range_succ, List.foldl_append, range_foldl_guard g e w j acc]
  by_cases hlt : j + w < e
  · have hmin1 : min w (e - j) = w := by omega
    have hmin2 : min (w + 1) (e - j) = w + 1 := by omega
    rw [hmin1, hmin2, List.range'_concat, List.foldl_append]
    simp [hlt]
  · have hmin : min (w + 1) (e - j) = min w (e - j) := by omega
    simp [hlt, hmin]

theorem numChunks_eq_zero {WF s e : Nat} (hWF : 0 < WF) (h : e ≤ s) :
    numChunks WF s e = 0 := by
  unfold numChunks
  rw [Nat.sub_eq_zero_of_le h]
  exact Nat.div_eq_of_lt (by omega)

theorem numChunks_succ {WF s e : Nat} (hWF : 0 < WF) (h : s < e) :
    numChunks WF s e = numChunks WF (s + WF) e + 1 := by
  unfold numChunks
  have h1 : e - s + (WF - 1) = (e - s - 1) + WF := by omega
  rw [h1, Nat.add_div_right _ hWF]
  rcases le_or_lt WF (e - s) with hge | hlt
  · have h2 : e - (s + WF) + (WF - 1) = e - s - 1 := by omega
    rw [h2]
  · have h2 : e - (s + WF) + (WF - 1) = WF - 1 + (e - (s + WF)) := by omega
    have h3 : e - (s + WF) = 0 := by omega
    rw [h2, h3, Nat.add_zero, Nat.div_eq_of_lt (by omega),
      Nat.div_eq_of_lt (by omega)]

theorem numChunks_zero_le {WF s e : Nat} (hWF : 0 < WF)
    (h : numChunks WF s e = 0) : e ≤ s := by
  by_contra hlt
  rw [numChunks_succ hWF (by omega)] at h
  exact Nat.succ_ne_zero _ h

theorem tile_foldl_eq (g : Nat → R → R) (WF e : Nat) (hWF : 0 < WF) :
    ∀ (n s : Nat), numChunks WF s e = n → ∀ acc : R,
      (List.range' s n WF).foldl
        (fun a j => (List.range WF).foldl
          (fun s' i => if j + i < e then g (j + i) s' else s') a) acc
        = (List.range' s (e - s)).foldl (fun a k => g k a) acc
| 0, s, hn, acc => by
  have : e - s = 0 := by have := numChunks_zero_le hWF hn; omega
  simp [this]
| n + 1, s, hn, acc => by
  have hse : s < e := by
    by_contra h
    rw [numChunks_eq_zero hWF (by omega)] at hn
    exact Nat.noConfusion hn
  have hn' : numChunks WF (s + WF) e = n := by
    have := numChunks_succ hWF hse
    omega
  rw [List.range'_succ, List.foldl_cons, range_foldl_guard,
    tile_foldl_eq g WF e hWF n (s + WF) hn' _]
  rcases le_or_lt WF (e - s) with hge | hlt
  · have hmin : min WF (e - s) = WF := by omega
    have hsplit : List.range' s (e - s) = List.range' s WF ++ List.range' (s + WF) (e - (s + WF)) := by
      have := List.range'_append s WF (e - (s + WF)) 1
      simp only [Nat.one_mul] at this
      rw [this]
      congr 1
      omega
    rw [hmin, hsplit, List.foldl_append]
  · have hmin : min WF (e - s) = e - s := by omega
    have h0 : e - (s + WF) = 0 := by omega
    rw [hmin, h0]
    simp

theorem csrmmnn_chunk_eq (conj : R → R) (trans_A trans_B : Operation)
    (ci : List Nat) (v B : List R) (base re colB WF j : Nat) (s : R) :
    csrmmnn_chunk conj trans_A trans_B ci v B base re colB WF j s
      = (List.range WF).foldl (fun a i =>
          if j + i < re then
            rocsparse_fma (aEntry conj trans_A v (j + i))
              (opVal conj trans_B (B.getD ((ci.getD (j + i) 0 - base) + colB) 0)) a
          else a) s := by
  unfold csrmmnn_chunk
  congr 1
  funext a i
  by_cases hk : j + i < re
  · cases trans_A <;> cases trans_B <;>
      simp [hk, aEntry, opVal, rocsparse_fma]
  · cases trans_A <;> cases trans_B <;>
      simp [hk, rocsparse_fma]

theorem csrmmnn_sum_eq (conj : R → R) (trans_A trans_B : Operation)
    (ci : List Nat) (v B : List R) (base rs re colB WF : Nat) (hWF : 0 < WF) :
    csrmmnn_sum conj trans_A trans_B ci v B base rs re colB WF
      = ((List.range' rs (re - rs)).map (fun j =>
          aEntry conj trans_A v j
            * opVal conj trans_B (B.getD ((ci.getD j 0 - base) + colB) 0))).sum := by
  unfold csrmmnn_sum tileStarts
  have hchunk : (fun (s : R) (j : Nat) =>
      csrmmnn_chunk conj trans_A trans_B ci v B base re colB WF j s)
      = fun s j => (List.range WF).foldl (fun a i =>
          if j + i < re then
            rocsparse_fma (aEntry conj trans_A v (j + i))
              (opVal conj trans_B (B.getD ((ci.getD (j + i) 0 - base) + colB) 0)) a
          else a) s := by
    funext s j
    exact csrmmnn_chunk_eq conj trans_A trans_B ci v B base re colB WF j s
  rw [hchunk,
    tile_foldl_eq (fun k a =>
      rocsparse_fma (aEntry conj trans_A v k)
        (opVal conj trans_B (B.getD ((ci.getD k 0 - base) + colB) 0)) a)
      WF re hWF (numChunks WF rs re) rs rfl 0]
  have : (fun (a : R) (k : Nat) =>
      rocsparse_fma (aEntry conj trans_A v k)
        (opVal conj trans_B (B.getD ((ci.getD k 0 - base) + colB) 0)) a)
      = fun a k =>
        (aEntry conj trans_A v k
          * opVal conj trans_B (B.getD ((ci.getD k 0 - base) + colB) 0)) + a := by
    funext a k
    simp [rocsparse_fma]
  rw [this, foldl_add_eq_sum, add_zero]

theorem csrmmnt_chunk_eq (conj : R → R) (trans_A trans_B : Operation)
    (ci : List Nat) (v B : List R) (base ldb re ncol col WF j : Nat)
    (hcol : col < ncol) (s : R) :
    csrmmnt_chunk conj trans_A trans_B ci v B base ldb re ncol col WF j s
      = (List.range WF).foldl (fun a i =>
          if j + i < re then
            rocsparse_fma (aEntry conj trans_A v (j + i))
              (opVal conj trans_B
                (B.getD (col + ldb * (ci.getD (j + i) 0 - base)) 0)) a
          else a) s := by
  unfold csrmmnt_chunk
  congr 1
  funext a i
  by_cases hk : j + i < re
  · cases trans_A <;> cases trans_B <;>
      simp [hk, hcol, aEntry, opVal, rocsparse_fma]
  · cases trans_A <;> cases trans_B <;>
      simp [hk, hcol, rocsparse_fma]

theorem csrmmnt_sum_eq (conj : R → R) (trans_A trans_B : Operation)
    (ci : List Nat) (v B : List R) (base ldb rs re ncol col WF : Nat)
    (hWF : 0 < WF) (hcol : col < ncol) :
    csrmmnt_sum conj trans_A trans_B ci v B base ldb rs re ncol col WF
      = ((List.range' rs (re - rs)).map (fun j =>
          aEntry conj trans_A v j
            * opVal conj trans_B
              (B.getD (col + ldb * (ci.getD j 0 - base)) 0))).sum := by
  unfold csrmmnt_sum tileStarts
  have hchunk : (fun (s : R) (j : Nat) =>
      csrmmnt_chunk conj trans_A trans_B ci v B base ldb re ncol col WF j s)
      = fun s j => (List.range WF).foldl (fun a i =>
          if j + i < re then
            rocsparse_fma (aEntry conj trans_A v (j + i))
              (opVal conj trans_B
                (B.getD (col + ldb * (ci.getD (j + i) 0 - base)) 0)) a
          else a) s := by
    funext s j
    exact csrmmnt_chunk_eq conj trans_A trans_B ci v B base ldb re ncol col WF j hcol s
  rw [hchunk,
    tile_foldl_eq (fun k a =>
      rocsparse_fma (aEntry conj trans_A v k)
        (opVal conj trans_B (B.getD (col + ldb * (ci.getD k 0 - base)) 0)) a)
      WF re hWF (numChunks WF rs re) rs rfl 0]
  have : (fun (a : R) (k : Nat) =>
      rocsparse_fma (aEntry conj trans_A v k)
        (opVal conj trans_B (B.getD (col + ldb * (ci.getD k 0 - base)) 0)) a)
      = fun a k =>
        (aEntry conj trans_A v k
          * opVal conj trans_B (B.getD (col + ldb * (ci.getD k 0 - base)) 0)) + a := by
    funext a k
    simp [rocsparse_fma]
  rw [this, foldl_add_eq_sum, add_zero]

theorem opVal_add (conj : R → R)
    (hadd : ∀ x y : R, conj (x + y) = conj x + conj y) (t : Operation)
    (x y : R) : opVal conj t (x + y) = opVal conj t x + opVal conj t y := by
  unfold opVal
  split
  · exact hadd x y
  · rfl

theorem opVal_ite (conj : R → R) (h0 : conj 0 = 0) (t : Operation)
    (P : Prop) [Decidable P] (x : R) :
    opVal conj t (if P then x else 0) = if P then opVal conj t x else 0 := by
  unfold opVal
  split
  · rw [apply_ite conj, h0]
  · rfl

theorem opVal_zero (conj : R → R) (h0 : conj 0 = 0) (t : Operation) :
    opVal conj t (0 : R) = 0 := by
  unfold opVal
  split
  · exact h0
  · rfl

theorem sum_scatter (conj : R → R) (h0 : conj 0 = 0)
    (hadd : ∀ x y : R, conj (x + y) = conj x + conj y)
    (trans_A : Operation) (v : List R) (ci : List Nat) (base K : Nat)
    (f : Nat → R) :
    ∀ l : List Nat, (∀ j ∈ l, ci.getD j 0 - base < K) →
      (l.map (fun j => aEntry conj trans_A v j * f (ci.getD j 0 - base))).sum
        = ((List.range K).map (fun k =>
            opVal conj trans_A
              ((l.map (fun j =>
                if ci.getD j 0 - base = k then v.getD j 0 else 0)).sum)
              * f k)).sum
| [], _ => by simp [opVal_zero conj h0]
| j :: l, hci => by
  have ih := sum_scatter conj h0 hadd trans_A v ci base K f l
    (fun j' hj' => hci j' (List.mem_cons_of_mem j hj'))
  simp only [List.map_cons, List.sum_cons]
  have hsplit : ∀ k : Nat,
      opVal conj trans_A
          ((if ci.getD j 0 - base = k then v.getD j 0 else 0)
            + (l.map (fun j' =>
                if ci.getD j' 0 - base = k then v.getD j' 0 else 0)).sum)
          * f k
        = (if ci.getD j 0 - base = k then aEntry conj trans_A v j * f k else 0)
          + opVal conj trans_A
              ((l.map (fun j' =>
                if ci.getD j' 0 - base = k then v.getD j' 0 else 0)).sum)
              * f k := by
    intro k
    rw [opVal_add conj hadd, add_mul, opVal_ite conj h0, ite_mul, zero_mul]
    rfl
  have hmap : (List.range K).map (fun k =>
      opVal conj trans_A
          ((if ci.getD j 0 - base = k then v.getD j 0 else 0)
            + (l.map (fun j' =>
                if ci.getD j' 0 - base = k then v.getD j' 0 else 0)).sum)
          * f k)
      = (List.range K).map (fun k =>
          (if ci.getD j 0 - base = k then aEntry conj trans_A v j * f k else 0)
          + opVal conj trans_A
              ((l.map (fun j' =>
                if ci.getD j' 0 - base = k then v.getD j' 0 else 0)).sum)
              * f k) :=
    List.map_congr_left (fun k _ => hsplit k)
  rw [hmap, List.sum_map_add,
    sum_range_ite (fun k => aEntry conj trans_A v j * f k) (ci.getD j 0 - base) K,
    if_pos (hci j (List.mem_cons_self j l)), ih]

theorem csrmmnn_getD (conj : R → R) (WF : Nat) (trans_A trans_B : Operation)
    (M N : Nat) (alpha : R) (rp ci : List Nat) (v B : List R) (ldb : Nat)
    (beta : R) (C : List R) (ldc : Nat) (order : Order) (base : Nat)
    {r c : Nat} (hld : ldOK order M N ldc C.length) (hr : r < M) (hc : c < N) :
    (csrmmnn_general_device conj WF trans_A trans_B M N alpha rp ci v B ldb
        beta C ldc order base).getD (cIdx order ldc r c) 0
      = csrmm_store alpha beta
          (csrmmnn_sum conj trans_A trans_B ci v B base
            (rp.getD r 0 - base) (rp.getD (r + 1) 0 - base) (c * ldb) WF)
          (C.getD (cIdx order ldc r c) 0) := by
  unfold csrmmnn_general_device
  rw [getD_mapWithIdx _ _ 0 C _ (cIdx_lt order hld hr hc)]
  simp only [Nat.zero_add, cRow_cIdx order hld.1 hr hc, cCol_cIdx order hld.1 hr hc]
  simp [hr, hc]

theorem csrmmnt_getD (conj : R → R) (WF : Nat) (trans_A trans_B : Operation)
    (offset ncol M : Nat) (alpha : R) (rp ci : List Nat) (v B : List R)
    (ldb : Nat) (beta : R) (C : List R) (ldc : Nat) (order : Order)
    (base : Nat) {r c : Nat} (hld : ldOK order M ncol ldc C.length)
    (hr : r < M) (hoff : offset ≤ c) (hc : c < ncol) :
    (csrmmnt_general_device conj WF trans_A trans_B offset ncol M alpha rp ci
        v B ldb beta C ldc order base).getD (cIdx order ldc r c) 0
      = csrmm_store alpha beta
          (csrmmnt_sum conj trans_A trans_B ci v B base ldb
            (rp.getD r 0 - base) (rp.getD (r + 1) 0 - base) ncol c WF)
          (C.getD (cIdx order ldc r c) 0) := by
  unfold csrmmnt_general_device
  rw [getD_mapWithIdx _ _ 0 C _ (cIdx_lt order hld hr hc)]
  simp only [Nat.zero_add, cRow_cIdx order hld.1 hr hc, cCol_cIdx order hld.1 hr hc]
  simp [hr, hoff, hc]

theorem csrmmtn_getD (conj : R → R) (trans_A trans_B : Operation)
    (K N : Nat) (alpha : R) (rp ci : List Nat) (v B : List R) (ldb : Nat)
    (beta : R) (C : List R) (ldc : Nat) (order : Order) (base : Nat)
    {M r c : Nat} (hld : ldOK order M N ldc C.length) (hr : r < M) (hc : c < N) :
    (csrmmtn_general_device conj trans_A trans_B K N alpha rp ci v B ldb
        beta C ldc order base).getD (cIdx order ldc r c) 0
      = C.getD (cIdx order ldc r c) 0
        + csrmmtn_add conj trans_A trans_B K alpha rp ci v B ldb base r c := by
  unfold csrmmtn_general_device
  rw [getD_mapWithIdx _ _ 0 C _ (cIdx_lt order hld hr hc)]
  simp only [Nat.zero_add, cRow_cIdx order hld.1 hr hc, cCol_cIdx order hld.1 hr hc]
  simp [hc]

theorem csrmmtt_getD (conj : R → R) (trans_A trans_B : Operation)
    (K N : Nat) (alpha : R) (rp ci : List Nat) (v B : List R) (ldb : Nat)
    (beta : R) (C : List R) (ldc : Nat) (order : Order) (base : Nat)
    {M r c : Nat} (hld : ldOK order M N ldc C.length) (hr : r < M) (hc : c < N) :
    (csrmmtt_general_device conj trans_A trans_B K N alpha rp ci v B ldb
        beta C ldc order base).getD (cIdx order ldc r c) 0
      = C.getD (cIdx order ldc r c) 0
        + csrmmtt_add conj trans_A trans_B K alpha rp ci v B ldb base r c := by
  unfold csrmmtt_general_device
  rw [getD_mapWithIdx _ _ 0 C _ (cIdx_lt order hld hr hc)]
  simp only [Nat.zero_add, cRow_cIdx order hld.1 hr hc, cCol_cIdx order hld.1 hr hc]
  simp [hc]

theorem getD_set_ne {l : List R} {i p : Nat} (h : i ≠ p) (a : R) :
    (l.set i a).getD p 0 = l.getD p 0 := by
  simp [List.getD_eq_getElem?_getD, List.getElem?_set_ne h]

theorem getD_set_self {l : List R} {p : Nat} (h : p < l.length) (a : R) :
    (l.set p a).getD p 0 = a := by
  simp [List.getD_eq_getElem?_getD, List.getElem?_set_self h]

theorem csrmm_scale_thread_eq (m n : Nat) (beta : R) (ld : Nat)
    (order : Order) (data : List R) (t : Nat × Nat) :
    csrmm_scale_thread m n beta ld order data t
      = if t.1 < m ∧ t.2 < n then
          data.set (cIdx order ld t.1 t.2)
            (data.getD (cIdx order ld t.1 t.2) 0 * beta)
        else data := by
  rcases t with ⟨x, y⟩
  unfold csrmm_scale_thread
  by_cases h1 : m ≤ x ∨ n ≤ y
  · have h2 : ¬(x < m ∧ y < n) := by omega
    simp [h1, h2]
  · have h2 : x < m ∧ y < n := by omega
    cases order <;> simp [h1, h2, cIdx, Nat.mul_comm, Nat.add_comm]

theorem csrmm_scale_thread_length (m n : Nat) (beta : R) (ld : Nat)
    (order : Order) (data : List R) (t : Nat × Nat) :
    (csrmm_scale_thread m n beta ld order data t).length = data.length := by
  rw [csrmm_scale_thread_eq]
  split <;> simp

theorem scale_foldl_length (m n : Nat) (beta : R) (ld : Nat) (order : Order) :
    ∀ (ts : List (Nat × Nat)) (data : List R),
      (ts.foldl (csrmm_scale_thread m n beta ld order) data).length = data.length
| [], _ => rfl
| t :: ts, data => by
  rw [List.foldl_cons, scale_foldl_length m n beta ld order ts _,
    csrmm_scale_thread_length]

theorem scale_foldl_frame (m n : Nat) (beta : R) (ld : Nat) (order : Order) :
    ∀ (ts : List (Nat × Nat)) (data : List R) (p : Nat),
      (∀ t ∈ ts, t.1 < m → t.2 < n → cIdx order ld t.1 t.2 ≠ p) →
      (ts.foldl (csrmm_scale_thread m n beta ld order) data).getD p 0
        = data.getD p 0
| [], _, _, _ => rfl
| t :: ts, data, p, h => by
  rw [List.foldl_cons,
    scale_foldl_frame m n beta ld order ts _ p
      (fun u hu => h u (List.mem_cons_of_mem t hu)),
    csrmm_scale_thread_eq]
  split
  · rcases t with ⟨x, y⟩
    rename_i hin
    exact getD_set_ne (h (x, y) (List.mem_cons_self _ _) hin.1 hin.2) _
  · rfl

theorem pairCount_nil (x y : Nat) : pairCount x y [] = 0 := rfl

theorem pairCount_cons (x y : Nat) (u : Nat × Nat) (ts : List (Nat × Nat)) :
    pairCount x y (u :: ts) = (if u = (x, y) then 1 else 0) + pairCount x y ts :=
  rfl

theorem pairCount_append (x y : Nat) :
    ∀ l₁ l₂ : List (Nat × Nat),
      pairCount x y (l₁ ++ l₂) = pairCount x y l₁ + pairCount x y l₂
| [], l₂ => by rw [List.nil_append, pairCount_nil, Nat.zero_add]
| u :: l₁, l₂ => by
  rw [List.cons_append, pairCount_cons, pairCount_cons,
    pairCount_append x y l₁ l₂]
  omega

theorem not_mem_of_pairCount_zero {x y : Nat} :
    ∀ {ts : List (Nat × Nat)}, pairCount x y ts = 0 → (x, y) ∉ ts
| [], _ => by simp
| u :: ts, h => by
  rw [pairCount_cons] at h
  intro hmem
  rcases List.mem_cons.mp hmem with heq | hmem'
  · rw [← heq, if_pos rfl] at h
    omega
  · exact not_mem_of_pairCount_zero (by
      rcases (em (u = (x, y))) with he | he
      · rw [if_pos he] at h; omega
      · rw [if_neg he] at h; omega) hmem'

theorem scale_foldl_write (m n : Nat) (beta : R) (ld : Nat) (order : Order)
    {x y p : Nat} (hx : x < m) (hy : y < n) (hp : cIdx order ld x y = p) :
    ∀ (ts : List (Nat × Nat)) (data : List R), p < data.length →
      (∀ u ∈ ts, u.1 < m → u.2 < n → cIdx order ld u.1 u.2 = p → u = (x, y)) →
      pairCount x y ts = 1 →
      (ts.foldl (csrmm_scale_thread m n beta ld order) data).getD p 0
        = data.getD p 0 * beta
| [], _, _, _, hcount => by rw [pairCount_nil] at hcount; omega
| u :: ts, data, hlen, honly, hcount => by
  by_cases hu : u = (x, y)
  · subst hu
    have hts0 : pairCount x y ts = 0 := by
      rw [pairCount_cons, if_pos rfl] at hcount
      omega
    have hts : (x, y) ∉ ts := not_mem_of_pairCount_zero hts0
    rw [List.foldl_cons,
      scale_foldl_frame m n beta ld order ts _ p
        (fun u hu h1 h2 h3 => hts (by
          have := honly u (List.mem_cons_of_mem _ hu) h1 h2 h3
          rwa [this] at hu)),
      csrmm_scale_thread_eq]
    have hin : ((x, y) : Nat × Nat).1 < m ∧ ((x, y) : Nat × Nat).2 < n := ⟨hx, hy⟩
    rw [if_pos hin]
    simp only
    rw [hp, getD_set_self hlen]
  · have hcount' : pairCount x y ts = 1 := by
      rw [pairCount_cons, if_neg hu] at hcount
      omega
    rw [List.foldl_cons]
    have hnt : (csrmm_scale_thread m n beta ld order data u).getD p 0
        = data.getD p 0 := by
      rw [csrmm_scale_thread_eq]
      split
      · rename_i hin
        refine getD_set_ne (fun heq => hu ?_) _
        exact honly u (List.mem_cons_self _ _) hin.1 hin.2 heq
      · rfl
    rw [← hnt] at *
    exact scale_foldl_write m n beta ld order hx hy hp ts _
      (by rw [csrmm_scale_thread_length]; exact hlen)
      (fun u hu => honly u (List.mem_cons_of_mem _ hu)) hcount'

theorem pairCount_column (gx x y : Nat) :
    ∀ gy : Nat, pairCount x y ((List.range gy).map (fun c => (gx, c)))
      = if x = gx ∧ y < gy then 1 else 0
| 0 => by simp [pairCount_nil]
| gy + 1 => by
  rw [List.range_succ, List.map_append, pairCount_append,
    pairCount_column gx x y gy]
  simp only [List.map_cons, List.map_nil, pairCount_cons, pairCount_nil,
    Prod.mk.injEq]
  split_ifs <;> omega

theorem pairCount_scaleGrid (x y : Nat) :
    ∀ gx gy : Nat, pairCount x y (scaleGrid gx gy)
      = if x < gx ∧ y < gy then 1 else 0
| 0, gy => by simp [scaleGrid, pairCount_nil]
| gx + 1, gy => by
  have hsplit : scaleGrid (gx + 1) gy
      = scaleGrid gx gy ++ (List.range gy).map (fun c => (gx, c)) := by
    unfold scaleGrid
    rw [List.range_succ, List.flatMap_append]
    simp
  rw [hsplit, pairCount_append, pairCount_scaleGrid x y gx gy,
    pairCount_column gx x y gy]
  split_ifs <;> omega


theorem csrmm_scale_length (gx gy m n : Nat) (beta : R) (data : List R)
    (ld : Nat) (order : Order) :
    (csrmm_scale_device gx gy m n beta data ld order).length = data.length :=
  scale_foldl_length m n beta ld order (scaleGrid gx gy) data

theorem csrmm_scale_getD_in (gx gy m n : Nat) (beta : R) (data : List R)
    (ld : Nat) (order : Order) {x y : Nat} (hinj : ldInj order m n ld)
    (hx : x < m) (hy : y < n) (hgx : m ≤ gx) (hgy : n ≤ gy)
    (hlen : cIdx order ld x y < data.length) :
    (csrmm_scale_device gx gy m n beta data ld order).getD (cIdx order ld x y) 0
      = data.getD (cIdx order ld x y) 0 * beta := by
  refine scale_foldl_write m n beta ld order hx hy rfl (scaleGrid gx gy) data
    hlen (fun u _ h1 h2 h3 => ?_) ?_
  · rcases cIdx_injOn order hinj h1 h2 hx hy h3 with ⟨e1, e2⟩
    rcases u with ⟨a, b⟩
    simp only at e1 e2
    rw [e1, e2]
  · rw [pairCount_scaleGrid x y gx gy, if_pos ⟨by omega, by omega⟩]

theorem csrmm_scale_getD_out (gx gy m n : Nat) (beta : R) (data : List R)
    (ld : Nat) (order : Order) {p : Nat} (hinj : ldInj order m n ld)
    (hout : m ≤ cRow order ld p ∨ n ≤ cCol order ld p) :
    (csrmm_scale_device gx gy m n beta data ld order).getD p 0
      = data.getD p 0 := by
  refine scale_foldl_frame m n beta ld order (scaleGrid gx gy) data p
    (fun t _ h1 h2 h3 => ?_)
  rcases hout with h | h
  · rw [← h3, cRow_cIdx order hinj h1 h2] at h
    omega
  · rw [← h3, cCol_cIdx order hinj h1 h2] at h
    omega

theorem opVal_list_sum (conj : R → R) (h0 : conj 0 = 0)
    (hadd : ∀ x y : R, conj (x + y) = conj x + conj y) (t : Operation)
    (l : List R) : opVal conj t l.sum = (l.map (opVal conj t)).sum := by
  unfold opVal
  split
  · exact conj_list_sum conj h0 hadd l
  · simp

theorem atomic_add_eq (conj : R → R) (h0 : conj 0 = 0)
    (hadd : ∀ x y : R, conj (x + y) = conj x + conj y)
    (trans_A trans_B : Operation) (K : Nat) (alpha : R)
    (rp ci : List Nat) (v : List R) (base : Nat) (bread : Nat → R)
    (orow : Nat) :
    ((List.range K).map (fun row =>
      ((rowRange rp base row).map (fun j =>
        if ci.getD j 0 - base = orow then
          (if trans_A = Operation.conjugateTranspose then
            alpha * conj (v.getD j 0)
          else
            alpha * v.getD j 0)
          *
          (if trans_B = Operation.conjugateTranspose then
            conj (bread row)
          else
            bread row)
        else 0)).sum)).sum
      = alpha * ((List.range K).map (fun k =>
          opVal conj trans_A (csrEntry rp ci v base k orow)
            * opVal conj trans_B (bread k))).sum := by
  rw [← List.sum_map_mul_left]
  refine congrArg List.sum (List.map_congr_left (fun k _ => ?_))
  have h1 : opVal conj trans_A (csrEntry rp ci v base k orow)
      = ((rowRange rp base k).map (fun j =>
          if ci.getD j 0 - base = orow then opVal conj trans_A (v.getD j 0)
          else 0)).sum := by
    unfold csrEntry
    rw [opVal_list_sum conj h0 hadd, List.map_map]
    refine congrArg List.sum (List.map_congr_left (fun j _ => ?_))
    simp only [Function.comp_apply]
    exact opVal_ite conj h0 trans_A _ _
  rw [h1, ← List.sum_map_mul_right, ← List.sum_map_mul_left]
  refine congrArg List.sum (List.map_congr_left (fun j _ => ?_))
  by_cases hc : ci.getD j 0 - base = orow
  · rw [if_pos hc, if_pos hc]
    cases trans_A <;> cases trans_B <;> simp [opVal] <;> ring
  · rw [if_neg hc, if_neg hc]
    ring

theorem csrmmtn_add_eq (conj : R → R) (h0 : conj 0 = 0)
    (hadd : ∀ x y : R, conj (x + y) = conj x + conj y)
    (trans_A trans_B : Operation) (K : Nat) (alpha : R)
    (rp ci : List Nat) (v B : List R) (ldb base orow n : Nat) :
    csrmmtn_add conj trans_A trans_B K alpha rp ci v B ldb base orow n
      = alpha * ((List.range K).map (fun k =>
          opVal conj trans_A (csrEntry rp ci v base k orow)
            * opVal conj trans_B (B.getD (k + n * ldb) 0))).sum :=
  atomic_add_eq conj h0 hadd trans_A trans_B K alpha rp ci v base
    (fun row => B.getD (row + n * ldb) 0) orow

theorem csrmmtt_add_eq (conj : R → R) (h0 : conj 0 = 0)
    (hadd : ∀ x y : R, conj (x + y) = conj x + conj y)
    (trans_A trans_B : Operation) (K : Nat) (alpha : R)
    (rp ci : List Nat) (v B : List R) (ldb base orow n : Nat) :
    csrmmtt_add conj trans_A trans_B K alpha rp ci v B ldb base orow n
      = alpha * ((List.range K).map (fun k =>
          opVal conj trans_A (csrEntry rp ci v base k orow)
            * opVal conj trans_B (B.getD (ldb * k + n) 0))).sum :=
  atomic_add_eq conj h0 hadd trans_A trans_B K alpha rp ci v base
    (fun row => B.getD (ldb * row + n) 0) orow

theorem csrmmnn_correct (conj : R → R) (h0 : conj 0 = 0)
    (hadd : ∀ x y : R, conj (x + y) = conj x + conj y)
    (WF : Nat) (hWF : 0 < WF) (trans_A trans_B : Operation) (M N K : Nat)
    (alpha : R) (rp ci : List Nat) (v B : List R) (ldb : Nat) (beta : R)
    (C : List R) (ldc : Nat) (order : Order) (base : Nat) {r c : Nat}
    (hld : ldOK order M N ldc C.length) (hr : r < M) (hc : c < N)
    (hci : ∀ j ∈ rowRange rp base r, ci.getD j 0 - base < K) :
    (csrmmnn_general_device conj WF trans_A trans_B M N alpha rp ci v B ldb
        beta C ldc order base).getD (cIdx order ldc r c) 0
      = referenceGemmEntry conj trans_A trans_B K alpha beta
          (csrEntry rp ci v base) (fun k n' => B.getD (k + n' * ldb) 0)
          (C.getD (cIdx order ldc r c) 0) r c := by
  rw [csrmmnn_getD conj WF trans_A trans_B M N alpha rp ci v B ldb beta C
      ldc order base hld hr hc,
    csrmmnn_sum_eq conj trans_A trans_B ci v B base _ _ _ WF hWF]
  have hrr : List.range' (rp.getD r 0 - base)
      ((rp.getD (r + 1) 0 - base) - (rp.getD r 0 - base))
      = rowRange rp base r := rfl
  rw [hrr,
    sum_scatter conj h0 hadd trans_A v ci base K
      (fun k => opVal conj trans_B (B.getD (k + c * ldb) 0))
      (rowRange rp base r) hci]
  unfold referenceGemmEntry csrEntry csrmm_store rocsparse_fma
  split_ifs with hb
  · rw [hb]; ring
  · ring

theorem csrmmnt_correct (conj : R → R) (h0 : conj 0 = 0)
    (hadd : ∀ x y : R, conj (x + y) = conj x + conj y)
    (WF : Nat) (hWF : 0 < WF) (trans_A trans_B : Operation) (M N K : Nat)
    (alpha : R) (rp ci : List Nat) (v B : List R) (ldb : Nat) (beta : R)
    (C : List R) (ldc : Nat) (order : Order) (base : Nat) {r c : Nat}
    (hld : ldOK order M N ldc C.length) (hr : r < M) (hc : c < N)
    (hci : ∀ j ∈ rowRange rp base r, ci.getD j 0 - base < K) :
    (csrmmnt_general_device conj WF trans_A trans_B 0 N M alpha rp ci v B
        ldb beta C ldc order base).getD (cIdx order ldc r c) 0
      = referenceGemmEntry conj trans_A trans_B K alpha beta
          (csrEntry rp ci v base) (fun k n' => B.getD (n' + ldb * k) 0)
          (C.getD (cIdx order ldc r c) 0) r c := by
  rw [csrmmnt_getD conj WF trans_A trans_B 0 N M alpha rp ci v B ldb beta C
      ldc order base hld hr (Nat.zero_le c) hc,
    csrmmnt_sum_eq conj trans_A trans_B ci v B base ldb _ _ N c WF hWF hc]
  have hrr : List.range' (rp.getD r 0 - base)
      ((rp.getD (r + 1) 0 - base) - (rp.getD r 0 - base))
      = rowRange rp base r := rfl
  rw [hrr,
    sum_scatter conj h0 hadd trans_A v ci base K
      (fun k => opVal conj trans_B (B.getD (c + ldb * k) 0))
      (rowRange rp base r) hci]
  unfold referenceGemmEntry csrEntry csrmm_store rocsparse_fma
  split_ifs with hb
  · rw [hb]; ring
  · ring

theorem csrmmtn_scaled_correct (conj : R → R) (h0 : conj 0 = 0)
    (hadd : ∀ x y : R, conj (x + y) = conj x + conj y)
    (trans_A trans_B : Operation) (gx gy M N K : Nat) (alpha : R)
    (rp ci : List Nat) (v B : List R) (ldb : Nat) (beta : R) (C : List R)
    (ldc : Nat) (order : Order) (base : Nat) {r c : Nat}
    (hld : ldOK order M N ldc C.length) (hr : r < M) (hc : c < N)
    (hgx : M ≤ gx) (hgy : N ≤ gy) :
    (csrmmtn_general_device conj trans_A trans_B K N alpha rp ci v B ldb
        beta (csrmm_scale_device gx gy M N beta C ldc order) ldc order
        base).getD (cIdx order ldc r c) 0
      = referenceGemmEntry conj trans_A trans_B K alpha beta
          (fun r' k => csrEntry rp ci v base k r')
          (fun k n' => B.getD (k + n' * ldb) 0)
          (C.getD (cIdx order ldc r c) 0) r c := by
  have hlen : (csrmm_scale_device gx gy M N beta C ldc order).length
      = C.length := csrmm_scale_length gx gy M N beta C ldc order
  have hld' : ldOK order M N ldc
      (csrmm_scale_device gx gy M N beta C ldc order).length := by
    rw [hlen]; exact hld
  rw [csrmmtn_getD conj trans_A trans_B K N alpha rp ci v B ldb beta _ ldc
      order base hld' hr hc,
    csrmm_scale_getD_in gx gy M N beta C ldc order hld.1 hr hc hgx hgy
      (cIdx_lt order hld hr hc),
    csrmmtn_add_eq conj h0 hadd trans_A trans_B K alpha rp ci v B ldb base r c]
  unfold referenceGemmEntry
  ring

theorem csrmmtt_scaled_correct (conj : R → R) (h0 : conj 0 = 0)
    (hadd : ∀ x y : R, conj (x + y) = conj x + conj y)
    (trans_A trans_B : Operation) (gx gy M N K : Nat) (alpha : R)
    (rp ci : List Nat) (v B : List R) (ldb : Nat) (beta : R) (C : List R)
    (ldc : Nat) (order : Order) (base : Nat) {r c : Nat}
    (hld : ldOK order M N ldc C.length) (hr : r < M) (hc : c < N)
    (hgx : M ≤ gx) (hgy : N ≤ gy) :
    (csrmmtt_general_device conj trans_A trans_B K N alpha rp ci v B ldb
        beta (csrmm_scale_device gx gy M N beta C ldc order) ldc order
        base).getD (cIdx order ldc r c) 0
      = referenceGemmEntry conj trans_A trans_B K alpha beta
          (fun r' k => csrEntry rp ci v base k r')
          (fun k n' => B.getD (ldb * k + n') 0)
          (C.getD (cIdx order ldc r c) 0) r c := by
  have hlen : (csrmm_scale_device gx gy M N beta C ldc order).length
      = C.length := csrmm_scale_length gx gy M N beta C ldc order
  have hld' : ldOK order M N ldc
      (csrmm_scale_device gx gy M N beta C ldc order).length := by
    rw [hlen]; exact hld
  rw [csrmmtt_getD conj trans_A trans_B K N alpha rp ci v B ldb beta _ ldc
      order base hld' hr hc,
    csrmm_scale_getD_in gx gy M N beta C ldc order hld.1 hr hc hgx hgy
      (cIdx_lt order hld hr hc),
    csrmmtt_add_eq conj h0 hadd trans_A trans_B K alpha rp ci v B ldb base r c]
  unfold referenceGemmEntry
  ring

theorem cIdx_decomp (order : Order) (ldc p : Nat) :
    cIdx order ldc (cRow order ldc p) (cCol order ldc p) = p := by
  cases order with
  | column => exact Nat.mod_add_div' p ldc
  | row => exact Nat.div_add_mod' p ldc

theorem ext_getD {l₁ l₂ : List R} (hlen : l₁.length = l₂.length)
    (h : ∀ p, p < l₁.length → l₁.getD p 0 = l₂.getD p 0) : l₁ = l₂ := by
  refine List.ext_getElem hlen (fun i h1 h2 => ?_)
  have hi := h i h1
  rwa [List.getD_eq_getElem?_getD, List.getD_eq_getElem?_getD,
    List.getElem?_eq_getElem h1, List.getElem?_eq_getElem h2,
    Option.getD_some, Option.getD_some] at hi

theorem csrmmnn_getD_frame (conj : R → R) (WF : Nat)
    (trans_A trans_B : Operation) (M N : Nat) (alpha : R)
    (rp ci : List Nat) (v B : List R) (ldb : Nat) (beta : R) (C : List R)
    (ldc : Nat) (order : Order) (base : Nat) {p : Nat}
    (hout : ¬(cRow order ldc p < M ∧ cCol order ldc p < N)) :
    (csrmmnn_general_device conj WF trans_A trans_B M N alpha rp ci v B ldb
        beta C ldc order base).getD p 0 = C.getD p 0 := by
  unfold csrmmnn_general_device
  rcases lt_or_ge p C.length with hp | hp
  · rw [getD_mapWithIdx _ _ 0 C p hp]
    simp [hout]
  · rw [List.getD_eq_default _ _ (by rw [length_mapWithIdx]; exact hp),
      List.getD_eq_default _ _ hp]

theorem csrmmnt_getD_frame (conj : R → R) (WF : Nat)
    (trans_A trans_B : Operation) (offset ncol M : Nat) (alpha : R)
    (rp ci : List Nat) (v B : List R) (ldb : Nat) (beta : R) (C : List R)
    (ldc : Nat) (order : Order) (base : Nat) {p : Nat}
    (hout : ¬(cRow order ldc p < M ∧ offset ≤ cCol order ldc p
      ∧ cCol order ldc p < ncol)) :
    (csrmmnt_general_device conj WF trans_A trans_B offset ncol M alpha rp
        ci v B ldb beta C ldc order base).getD p 0 = C.getD p 0 := by
  unfold csrmmnt_general_device
  rcases lt_or_ge p C.length with hp | hp
  · rw [getD_mapWithIdx _ _ 0 C p hp]
    simp only [Nat.zero_add]
    rw [if_neg hout]
  · rw [List.getD_eq_default _ _ (by rw [length_mapWithIdx]; exact hp),
      List.getD_eq_default _ _ hp]

/-- C2 counterexample: with `M = N = K = 2`, `alpha = 1`, `beta = 0`,
zero base, column order, `A = [[1, 2], [0, 3]]`
(`row_ptr = [0, 2, 3]`, `col_ind = [0, 1, 1]`, `values = [1, 2, 3]`) and
the same buffer `B = [5, 7, 6, 8]` with `ldb = 2` handed to both
kernels, the `nt` kernel over the full output-column range
(`offset = 0`, `ncol = N`) produces `[17, 18, 23, 24]` while the `nn`
kernel produces `[19, 21, 22, 24]`: the two kernels address `B` in
transposed layouts (source line 180/198 versus 75/94), so on identical
inputs their outputs differ. -/
theorem claim_C2_counterexample :
    csrmmnt_general_device (R := Int) id 2 Operation.none Operation.none
        0 2 2 1 [0, 2, 3] [0, 1, 1] [1, 2, 3] [5, 7, 6, 8] 2 0
        [0, 0, 0, 0] 2 Order.column 0
      ≠ csrmmnn_general_device (R := Int) id 2 Operation.none Operation.none
        2 2 1 [0, 2, 3] [0, 1, 1] [1, 2, 3] [5, 7, 6, 8] 2 0
        [0, 0, 0, 0] 2 Order.column 0 := by decide

/-- C2 amended: the `nt` kernel invoked over the full output-column range
(offset `0`, `ncol = N`) produces exactly the same output matrix `C` as
the `nn` kernel on the same `A`, `C`, scalars, transpose modes, order
flag and index base, provided the `B` buffer handed to `nt` stores the
same logical matrix as the buffer handed to `nn` in the transposed
layout: `Bt[n + ldbt * k] = B[k + n * ldb]` on the logical `K × N`
extent.  (The claim as frozen — the very same `B` buffer for both — is
refuted by `claim_C2_counterexample`.) -/
theorem claim_C2_amended (conj : R → R) (h0 : conj 0 = 0)
    (hadd : ∀ x y : R, conj (x + y) = conj x + conj y)
    (WF : Nat) (hWF : 0 < WF) (trans_A trans_B : Operation) (order : Order)
    (M N K : Nat) (alpha beta : R) (rp ci : List Nat) (v B Bt : List R)
    (ldb ldbt ldc base : Nat) (C : List R)
    (hld : ldOK order M N ldc C.length)
    (hci : ∀ r' < M, ∀ j ∈ rowRange rp base r', ci.getD j 0 - base < K)
    (hB : ∀ k < K, ∀ n' < N, Bt.getD (n' + ldbt * k) 0
      = B.getD (k + n' * ldb) 0) :
    csrmmnt_general_device conj WF trans_A trans_B 0 N M alpha rp ci v Bt
        ldbt beta C ldc order base
      = csrmmnn_general_device conj WF trans_A trans_B M N alpha rp ci v B
        ldb beta C ldc order base := by
  have hl₁ : (csrmmnt_general_device conj WF trans_A trans_B 0 N M alpha
      rp ci v Bt ldbt beta C ldc order base).length = C.length :=
    length_mapWithIdx _ 0 C
  have hl₂ : (csrmmnn_general_device conj WF trans_A trans_B M N alpha rp
      ci v B ldb beta C ldc order base).length = C.length :=
    length_mapWithIdx _ 0 C
  refine ext_getD (by rw [hl₁, hl₂]) (fun p hp => ?_)
  by_cases hin : cRow order ldc p < M ∧ cCol order ldc p < N
  · rw [← cIdx_decomp order ldc p,
      csrmmnt_correct conj h0 hadd WF hWF trans_A trans_B M N K alpha rp ci
        v Bt ldbt beta C ldc order base hld hin.1 hin.2 (hci _ hin.1),
      csrmmnn_correct conj h0 hadd WF hWF trans_A trans_B M N K alpha rp ci
        v B ldb beta C ldc order base hld hin.1 hin.2 (hci _ hin.1)]
    unfold referenceGemmEntry
    refine congrArg (fun s => alpha * s + beta * _) ?_
    refine congrArg List.sum (List.map_congr_left (fun k hk => ?_))
    simp only [hB k (List.mem_range.mp hk) (cCol order ldc p) hin.2]
  · rw [csrmmnt_getD_frame conj WF trans_A trans_B 0 N M alpha rp ci v Bt
        ldbt beta C ldc order base (by omega),
      csrmmnn_getD_frame conj WF trans_A trans_B M N alpha rp ci v B ldb
        beta C ldc order base hin]

/-- Witness for C2's amended statement at a concrete input: `nt` on the
row-layout buffer `[5, 6, 7, 8]` equals `nn` on the column-layout buffer
`[5, 7, 6, 8]` of the same logical `B = [[5, 6], [7, 8]]`. -/
theorem claim_C2_amended_witness :
    csrmmnt_general_device (R := Int) id 2 Operation.none Operation.none
        0 2 2 1 [0, 2, 3] [0, 1, 1] [1, 2, 3] [5, 6, 7, 8] 2 0
        [0, 0, 0, 0] 2 Order.column 0
      = csrmmnn_general_device (R := Int) id 2 Operation.none Operation.none
        2 2 1 [0, 2, 3] [0, 1, 1] [1, 2, 3] [5, 7, 6, 8] 2 0
        [0, 0, 0, 0] 2 Order.column 0 :=
  claim_C2_amended (R := Int) id rfl (fun _ _ => rfl) 2 (by decide)
    Operation.none Operation.none Order.column 2 2 2 1 0
    [0, 2, 3] [0, 1, 1] [1, 2, 3] [5, 7, 6, 8] [5, 6, 7, 8] 2 2 2 0
    [0, 0, 0, 0] (by decide) (by decide) (by decide)

/-- C1: for every valid CSR matrix `A` (`row_ptr` non-decreasing and
`col_ind` in bounds after index-base correction — the in-bound facts are
the hypotheses actually consumed; the value-level argument needs no
monotonicity, both sides reading the same empty range when a row's
bounds are inverted), dense `B`, dense `C`, and scalars `alpha`, `beta`,
each kernel variant — `nn`, `nt` (full column range), and the atomic
`tn`/`tt` taken after the required `beta` pre-scaling by the scale
kernel — produces at every logical output element `(r, c)` the reference
triple-loop value `alpha * op(A) * op(B) + beta * C`, for every
combination of transpose modes (`conj` additive with `conj 0 = 0`, as
complex conjugation is), order flags, and index base.  The `nn`/`tn`
kernels read `B` in the `k + n * ldb` layout and `nt`/`tt` in the
`n + ldb * k` layout, matching the source's addressing; for the
transposed-`A` kernels the CSR operand (`rpT`, `ciT`, `vT`) stores
`op(A)`'s contraction dimension as its `K` rows. -/
theorem claim_C1 (conj : R → R) (h0 : conj 0 = 0)
    (hadd : ∀ x y : R, conj (x + y) = conj x + conj y)
    (WF : Nat) (hWF : 0 < WF) (trans_A trans_B : Operation) (order : Order)
    (M N K gx gy : Nat) (alpha beta : R) (rp ci rpT ciT : List Nat)
    (v vT B Bt : List R) (ldb ldbt ldc base : Nat) (C : List R)
    (hld : ldOK order M N ldc C.length)
    (hci : ∀ r' < M, ∀ j ∈ rowRange rp base r', ci.getD j 0 - base < K)
    (hciT : ∀ k < K, ∀ j ∈ rowRange rpT base k, ciT.getD j 0 - base < M)
    (hgx : M ≤ gx) (hgy : N ≤ gy) {r c : Nat} (hr : r < M) (hc : c < N) :
    (csrmmnn_general_device conj WF trans_A trans_B M N alpha rp ci v B ldb
        beta C ldc order base).getD (cIdx order ldc r c) 0
      = referenceGemmEntry conj trans_A trans_B K alpha beta
          (csrEntry rp ci v base) (fun k n' => B.getD (k + n' * ldb) 0)
          (C.getD (cIdx order ldc r c) 0) r c
    ∧ (csrmmnt_general_device conj WF trans_A trans_B 0 N M alpha rp ci v Bt
        ldbt beta C ldc order base).getD (cIdx order ldc r c) 0
      = referenceGemmEntry conj trans_A trans_B K alpha beta
          (csrEntry rp ci v base) (fun k n' => Bt.getD (n' + ldbt * k) 0)
          (C.getD (cIdx order ldc r c) 0) r c
    ∧ (csrmmtn_general_device conj trans_A trans_B K N alpha rpT ciT vT B
        ldb beta (csrmm_scale_device gx gy M N beta C ldc order) ldc order
        base).getD (cIdx order ldc r c) 0
      = referenceGemmEntry conj trans_A trans_B K alpha beta
          (fun r' k => csrEntry rpT ciT vT base k r')
          (fun k n' => B.getD (k + n' * ldb) 0)
          (C.getD (cIdx order ldc r c) 0) r c
    ∧ (csrmmtt_general_device conj trans_A trans_B K N alpha rpT ciT vT Bt
        ldbt beta (csrmm_scale_device gx gy M N beta C ldc order) ldc order
        base).getD (cIdx order ldc r c) 0
      = referenceGemmEntry conj trans_A trans_B K alpha beta
          (fun r' k => csrEntry rpT ciT vT base k r')
          (fun k n' => Bt.getD (ldbt * k + n') 0)
          (C.getD (cIdx order ldc r c) 0) r c :=
  ⟨csrmmnn_correct conj h0 hadd WF hWF trans_A trans_B M N K alpha rp ci v
      B ldb beta C ldc order base hld hr hc (hci r hr),
    csrmmnt_correct conj h0 hadd WF hWF trans_A trans_B M N K alpha rp ci v
      Bt ldbt beta C ldc order base hld hr hc (hci r hr),
    csrmmtn_scaled_correct conj h0 hadd trans_A trans_B gx gy M N K alpha
      rpT ciT vT B ldb beta C ldc order base hld hr hc hgx hgy,
    csrmmtt_scaled_correct conj h0 hadd trans_A trans_B gx gy M N K alpha
      rpT ciT vT Bt ldbt beta C ldc order base hld hr hc hgx hgy⟩

/-- Witness for C1 at a concrete valid input (`M = N = K = 2`,
`alpha = 2`, `beta = 3`, zero base, column order): the `nn` conjunct
evaluated and checked by `decide` after applying `claim_C1`. -/
theorem claim_C1_witness :
    (csrmmnn_general_device (R := Int) id 2 Operation.none Operation.none
        2 2 2 [0, 2, 3] [0, 1, 1] [1, 2, 3] [5, 7, 6, 8] 2 3 [1, 2, 3, 4]
        2 Order.column 0).getD (cIdx Order.column 2 0 1) 0
      = referenceGemmEntry (R := Int) id Operation.none Operation.none 2 2 3
          (csrEntry [0, 2, 3] [0, 1, 1] [1, 2, 3] 0)
          (fun k n' => [(5 : Int), 7, 6, 8].getD (k + n' * 2) 0)
          ([(1 : Int), 2, 3, 4].getD (cIdx Order.column 2 0 1) 0) 0 1 :=
  (claim_C1 (R := Int) id rfl (fun _ _ => rfl) 2 (by decide)
    Operation.none Operation.none Order.column 2 2 2 2 2 2 3
    [0, 2, 3] [0, 1, 1] [0, 1, 3] [0, 1, 1] [1, 2, 3] [4, 5, 6]
    [5, 7, 6, 8] [5, 6, 7, 8] 2 2 2 0 [1, 2, 3, 4] (by decide)
    (by decide) (by decide) (by decide) (by decide) (by decide)
    (by decide)).1

/-- C3: in the `nn` and `nt` kernels, when `beta = 0` the final store
overwrites the output element with `alpha * sum` without reading `C`:
for any two prior contents `C₁`, `C₂` of the output buffer (of the
valid length), every element written by the kernel — logical `(r, c)`
with `r < M`, `c < N` — receives the same value in both runs. -/
theorem claim_C3 (conj : R → R) (WF : Nat) (trans_A trans_B : Operation)
    (order : Order) (M N : Nat) (alpha : R) (rp ci : List Nat)
    (v B : List R) (ldb ldc base : Nat) (C₁ C₂ : List R)
    (hld : ldOK order M N ldc C₁.length) (hlen : C₂.length = C₁.length)
    {r c : Nat} (hr : r < M) (hc : c < N) :
    (csrmmnn_general_device conj WF trans_A trans_B M N alpha rp ci v B ldb
        0 C₁ ldc order base).getD (cIdx order ldc r c) 0
      = (csrmmnn_general_device conj WF trans_A trans_B M N alpha rp ci v B
        ldb 0 C₂ ldc order base).getD (cIdx order ldc r c) 0
    ∧ (csrmmnt_general_device conj WF trans_A trans_B 0 N M alpha rp ci v B
        ldb 0 C₁ ldc order base).getD (cIdx order ldc r c) 0
      = (csrmmnt_general_device conj WF trans_A trans_B 0 N M alpha rp ci v
        B ldb 0 C₂ ldc order base).getD (cIdx order ldc r c) 0 := by
  have hld₂ : ldOK order M N ldc C₂.length := by rw [hlen]; exact hld
  constructor
  · rw [csrmmnn_getD conj WF trans_A trans_B M N alpha rp ci v B ldb 0 C₁
        ldc order base hld hr hc,
      csrmmnn_getD conj WF trans_A trans_B M N alpha rp ci v B ldb 0 C₂
        ldc order base hld₂ hr hc]
    unfold csrmm_store
    rw [if_pos rfl, if_pos rfl]
  · rw [csrmmnt_getD conj WF trans_A trans_B 0 N M alpha rp ci v B ldb 0 C₁
        ldc order base hld hr (Nat.zero_le c) hc,
      csrmmnt_getD conj WF trans_A trans_B 0 N M alpha rp ci v B ldb 0 C₂
        ldc order base hld₂ hr (Nat.zero_le c) hc]
    unfold csrmm_store
    rw [if_pos rfl, if_pos rfl]

/-- Witness for C3 at a concrete input: prior contents `[1, 2, 3, 4]`
versus `[9, 8, 7, 6]` give the same stored value at logical `(1, 0)`
when `beta = 0`. -/
theorem claim_C3_witness :
    (csrmmnn_general_device (R := Int) id 2 Operation.none Operation.none
        2 2 5 [0, 2, 3] [0, 1, 1] [1, 2, 3] [5, 7, 6, 8] 2 0 [1, 2, 3, 4]
        2 Order.column 0).getD (cIdx Order.column 2 1 0) 0
      = (csrmmnn_general_device (R := Int) id 2 Operation.none
        Operation.none 2 2 5 [0, 2, 3] [0, 1, 1] [1, 2, 3] [5, 7, 6, 8] 2 0
        [9, 8, 7, 6] 2 Order.column 0).getD (cIdx Order.column 2 1 0) 0 :=
  (claim_C3 (R := Int) id 2 Operation.none Operation.none Order.column 2 2
    5 [0, 2, 3] [0, 1, 1] [1, 2, 3] [5, 7, 6, 8] 2 2 0 [1, 2, 3, 4]
    [9, 8, 7, 6] (by decide) (by decide) (by decide) (by decide)).1

theorem option_map_getD (f : R → R) (h0 : f 0 = 0) (o : Option R) :
    (o.map f).getD 0 = f (o.getD 0) := by
  cases o <;> simp [h0]

theorem mapWithIdx_congr {α : Type} (f g : Nat → α → α)
    (h : ∀ p a, f p a = g p a) :
    ∀ (p : Nat) (l : List α), mapWithIdx f p l = mapWithIdx g p l
| _, [] => rfl
| p, a :: l => by
  show f p a :: mapWithIdx f (p + 1) l = g p a :: mapWithIdx g (p + 1) l
  rw [h p a, mapWithIdx_congr f g h (p + 1) l]

theorem csrmmnn_chunk_modes (conj : R → R) (h0 : conj 0 = 0)
    (trans_A trans_B : Operation) (ci : List Nat) (v B : List R)
    (base re colB WF j : Nat) (s : R) :
    csrmmnn_chunk conj trans_A trans_B ci v B base re colB WF j s
      = csrmmnn_chunk conj Operation.none Operation.none ci
          (if trans_A = Operation.conjugateTranspose then v.map conj else v)
          (if trans_B = Operation.conjugateTranspose then B.map conj else B)
          base re colB WF j s := by
  unfold csrmmnn_chunk
  congr 1
  funext a i
  by_cases hk : j + i < re <;> cases trans_A <;> cases trans_B <;>
    simp [hk, rocsparse_fma, getD_map_zero conj h0, option_map_getD conj h0]

theorem csrmmnn_sum_modes (conj : R → R) (h0 : conj 0 = 0)
    (trans_A trans_B : Operation) (ci : List Nat) (v B : List R)
    (base rs re colB WF : Nat) :
    csrmmnn_sum conj trans_A trans_B ci v B base rs re colB WF
      = csrmmnn_sum conj Operation.none Operation.none ci
          (if trans_A = Operation.conjugateTranspose then v.map conj else v)
          (if trans_B = Operation.conjugateTranspose then B.map conj else B)
          base rs re colB WF := by
  unfold csrmmnn_sum
  congr 1
  funext s j
  exact csrmmnn_chunk_modes conj h0 trans_A trans_B ci v B base re colB WF j s

theorem csrmmnn_modes (conj : R → R) (h0 : conj 0 = 0) (WF : Nat)
    (trans_A trans_B : Operation) (M N : Nat) (alpha : R)
    (rp ci : List Nat) (v B : List R) (ldb : Nat) (beta : R) (C : List R)
    (ldc : Nat) (order : Order) (base : Nat) :
    csrmmnn_general_device conj WF trans_A trans_B M N alpha rp ci v B ldb
        beta C ldc order base
      = csrmmnn_general_device conj WF Operation.none Operation.none M N
          alpha rp ci
          (if trans_A = Operation.conjugateTranspose then v.map conj else v)
          (if trans_B = Operation.conjugateTranspose then B.map conj else B)
          ldb beta C ldc order base := by
  unfold csrmmnn_general_device
  refine mapWithIdx_congr _ _ (fun p a => ?_) 0 C
  simp only [csrmmnn_sum_modes conj h0 trans_A trans_B ci v B base]

theorem csrmmnt_chunk_modes (conj : R → R) (h0 : conj 0 = 0)
    (trans_A trans_B : Operation) (ci : List Nat) (v B : List R)
    (base ldb re ncol col WF j : Nat) (s : R) :
    csrmmnt_chunk conj trans_A trans_B ci v B base ldb re ncol col WF j s
      = csrmmnt_chunk conj Operation.none Operation.none ci
          (if trans_A = Operation.conjugateTranspose then v.map conj else v)
          (if trans_B = Operation.conjugateTranspose then B.map conj else B)
          base ldb re ncol col WF j s := by
  unfold csrmmnt_chunk
  congr 1
  funext a i
  by_cases hk : j + i < re <;> by_cases hcol : col < ncol <;>
    cases trans_A <;> cases trans_B <;>
    simp [hk, hcol, rocsparse_fma, getD_map_zero conj h0, option_map_getD conj h0, h0]

theorem csrmmnt_sum_modes (conj : R → R) (h0 : conj 0 = 0)
    (trans_A trans_B : Operation) (ci : List Nat) (v B : List R)
    (base ldb rs re ncol col WF : Nat) :
    csrmmnt_sum conj trans_A trans_B ci v B base ldb rs re ncol col WF
      = csrmmnt_sum conj Operation.none Operation.none ci
          (if trans_A = Operation.conjugateTranspose then v.map conj else v)
          (if trans_B = Operation.conjugateTranspose then B.map conj else B)
          base ldb rs re ncol col WF := by
  unfold csrmmnt_sum
  congr 1
  funext s j
  exact csrmmnt_chunk_modes conj h0 trans_A trans_B ci v B base ldb re ncol
    col WF j s

theorem csrmmnt_modes (conj : R → R) (h0 : conj 0 = 0) (WF : Nat)
    (trans_A trans_B : Operation) (offset ncol M : Nat) (alpha : R)
    (rp ci : List Nat) (v B : List R) (ldb : Nat) (beta : R) (C : List R)
    (ldc : Nat) (order : Order) (base : Nat) :
    csrmmnt_general_device conj WF trans_A trans_B offset ncol M alpha rp
        ci v B ldb beta C ldc order base
      = csrmmnt_general_device conj WF Operation.none Operation.none offset
          ncol M alpha rp ci
          (if trans_A = Operation.conjugateTranspose then v.map conj else v)
          (if trans_B = Operation.conjugateTranspose then B.map conj else B)
          ldb beta C ldc order base := by
  unfold csrmmnt_general_device
  refine mapWithIdx_congr _ _ (fun p a => ?_) 0 C
  simp only [csrmmnt_sum_modes conj h0 trans_A trans_B ci v B base ldb]

theorem csrmmtn_add_modes (conj : R → R) (h0 : conj 0 = 0)
    (trans_A trans_B : Operation) (K : Nat) (alpha : R)
    (rp ci : List Nat) (v B : List R) (ldb base orow n : Nat) :
    csrmmtn_add conj trans_A trans_B K alpha rp ci v B ldb base orow n
      = csrmmtn_add conj Operation.none Operation.none K alpha rp ci
          (if trans_A = Operation.conjugateTranspose then v.map conj else v)
          (if trans_B = Operation.conjugateTranspose then B.map conj else B)
          ldb base orow n := by
  unfold csrmmtn_add
  refine congrArg List.sum (List.map_congr_left (fun row _ =>
    congrArg List.sum (List.map_congr_left (fun j _ => ?_))))
  cases trans_A <;> cases trans_B <;> simp [getD_map_zero conj h0, option_map_getD conj h0]

theorem csrmmtn_modes (conj : R → R) (h0 : conj 0 = 0)
    (trans_A trans_B : Operation) (K N : Nat) (alpha : R)
    (rp ci : List Nat) (v B : List R) (ldb : Nat) (beta : R) (C : List R)
    (ldc : Nat) (order : Order) (base : Nat) :
    csrmmtn_general_device conj trans_A trans_B K N alpha rp ci v B ldb
        beta C ldc order base
      = csrmmtn_general_device conj Operation.none Operation.none K N alpha
          rp ci
          (if trans_A = Operation.conjugateTranspose then v.map conj else v)
          (if trans_B = Operation.conjugateTranspose then B.map conj else B)
          ldb beta C ldc order base := by
  unfold csrmmtn_general_device
  refine mapWithIdx_congr _ _ (fun p a => ?_) 0 C
  simp only [csrmmtn_add_modes conj h0 trans_A trans_B K alpha rp ci v B ldb base]

theorem csrmmtt_add_modes (conj : R → R) (h0 : conj 0 = 0)
    (trans_A trans_B : Operation) (K : Nat) (alpha : R)
    (rp ci : List Nat) (v B : List R) (ldb base orow n : Nat) :
    csrmmtt_add conj trans_A trans_B K alpha rp ci v B ldb base orow n
      = csrmmtt_add conj Operation.none Operation.none K alpha rp ci
          (if trans_A = Operation.conjugateTranspose then v.map conj else v)
          (if trans_B = Operation.conjugateTranspose then B.map conj else B)
          ldb base orow n := by
  unfold csrmmtt_add
  refine congrArg List.sum (List.map_congr_left (fun row _ =>
    congrArg List.sum (List.map_congr_left (fun j _ => ?_))))
  cases trans_A <;> cases trans_B <;> simp [getD_map_zero conj h0, option_map_getD conj h0]

theorem csrmmtt_modes (conj : R → R) (h0 : conj 0 = 0)
    (trans_A trans_B : Operation) (K N : Nat) (alpha : R)
    (rp ci : List Nat) (v B : List R) (ldb : Nat) (beta : R) (C : List R)
    (ldc : Nat) (order : Order) (base : Nat) :
    csrmmtt_general_device conj trans_A trans_B K N alpha rp ci v B ldb
        beta C ldc order base
      = csrmmtt_general_device conj Operation.none Operation.none K N alpha
          rp ci
          (if trans_A = Operation.conjugateTranspose then v.map conj else v)
          (if trans_B = Operation.conjugateTranspose then B.map conj else B)
          ldb beta C ldc order base := by
  unfold csrmmtt_general_device
  refine mapWithIdx_congr _ _ (fun p a => ?_) 0 C
  simp only [csrmmtt_add_modes conj h0 trans_A trans_B K alpha rp ci v B ldb base]

/-- C4: in every compute kernel an `A` value is used conjugated exactly
when `trans_A` is conjugate-transpose, and the accessed `B` value is used
conjugated exactly when `trans_B` is conjugate-transpose; all other
transpose modes use the values unmodified.  Formally: each kernel on any
modes equals the same kernel with both modes `none` after pre-conjugating
`csr_val` exactly when `trans_A` is conjugate-transpose and `B` exactly
when `trans_B` is conjugate-transpose (`conj 0 = 0`, as for complex
conjugation, covers the zero-padded tile slots). -/
theorem claim_C4 (conj : R → R) (h0 : conj 0 = 0) (WF : Nat)
    (trans_A trans_B : Operation) (offset ncol M N K : Nat) (alpha : R)
    (rp ci : List Nat) (v B : List R) (ldb : Nat) (beta : R) (C : List R)
    (ldc : Nat) (order : Order) (base : Nat) :
    csrmmnn_general_device conj WF trans_A trans_B M N alpha rp ci v B ldb
        beta C ldc order base
      = csrmmnn_general_device conj WF Operation.none Operation.none M N
          alpha rp ci
          (if trans_A = Operation.conjugateTranspose then v.map conj else v)
          (if trans_B = Operation.conjugateTranspose then B.map conj else B)
          ldb beta C ldc order base
    ∧ csrmmnt_general_device conj WF trans_A trans_B offset ncol M alpha rp
        ci v B ldb beta C ldc order base
      = csrmmnt_general_device conj WF Operation.none Operation.none offset
          ncol M alpha rp ci
          (if trans_A = Operation.conjugateTranspose then v.map conj else v)
          (if trans_B = Operation.conjugateTranspose then B.map conj else B)
          ldb beta C ldc order base
    ∧ csrmmtn_general_device conj trans_A trans_B K N alpha rp ci v B ldb
        beta C ldc order base
      = csrmmtn_general_device conj Operation.none Operation.none K N alpha
          rp ci
          (if trans_A = Operation.conjugateTranspose then v.map conj else v)
          (if trans_B = Operation.conjugateTranspose then B.map conj else B)
          ldb beta C ldc order base
    ∧ csrmmtt_general_device conj trans_A trans_B K N alpha rp ci v B ldb
        beta C ldc order base
      = csrmmtt_general_device conj Operation.none Operation.none K N alpha
          rp ci
          (if trans_A = Operation.conjugateTranspose then v.map conj else v)
          (if trans_B = Operation.conjugateTranspose then B.map conj else B)
          ldb beta C ldc order base :=
  ⟨csrmmnn_modes conj h0 WF trans_A trans_B M N alpha rp ci v B ldb beta C
      ldc order base,
    csrmmnt_modes conj h0 WF trans_A trans_B offset ncol M alpha rp ci v B
      ldb beta C ldc order base,
    csrmmtn_modes conj h0 trans_A trans_B K N alpha rp ci v B ldb beta C
      ldc order base,
    csrmmtt_modes conj h0 trans_A trans_B K N alpha rp ci v B ldb beta C
      ldc order base⟩

/-- Witness for C4 over the Gaussian integers with true complex
conjugation (`star ⟨x, y⟩ = ⟨x, -y⟩`): the `nn` kernel with both modes
conjugate-transpose equals the mode-`none` kernel on pre-conjugated
data, checked by `decide` after applying `claim_C4`. -/
theorem claim_C4_witness :
    csrmmnn_general_device (R := Zsqrtd (-1)) star 2
        Operation.conjugateTranspose Operation.conjugateTranspose 1 2
        ⟨1, 0⟩ [0, 2] [0, 1] [⟨1, 2⟩, ⟨3, -1⟩]
        [⟨5, 1⟩, ⟨0, 2⟩, ⟨4, 0⟩, ⟨7, -3⟩] 2 ⟨0, 1⟩ [⟨1, 1⟩, ⟨2, 2⟩] 1
        Order.column 0
      = csrmmnn_general_device (R := Zsqrtd (-1)) star 2 Operation.none
          Operation.none 1 2 ⟨1, 0⟩ [0, 2] [0, 1]
          (if Operation.conjugateTranspose = Operation.conjugateTranspose
            then ([⟨1, 2⟩, ⟨3, -1⟩] : List (Zsqrtd (-1))).map star
            else [⟨1, 2⟩, ⟨3, -1⟩])
          (if Operation.conjugateTranspose = Operation.conjugateTranspose
            then ([⟨5, 1⟩, ⟨0, 2⟩, ⟨4, 0⟩, ⟨7, -3⟩] : List (Zsqrtd (-1))).map star
            else [⟨5, 1⟩, ⟨0, 2⟩, ⟨4, 0⟩, ⟨7, -3⟩])
          2 ⟨0, 1⟩ [⟨1, 1⟩, ⟨2, 2⟩] 1 Order.column 0 :=
  (claim_C4 (R := Zsqrtd (-1)) star (by decide) 2
    Operation.conjugateTranspose Operation.conjugateTranspose 0 2 1 2 3
    ⟨1, 0⟩ [0, 2] [0, 1] [⟨1, 2⟩, ⟨3, -1⟩]
    [⟨5, 1⟩, ⟨0, 2⟩, ⟨4, 0⟩, ⟨7, -3⟩] 2 ⟨0, 1⟩ [⟨1, 1⟩, ⟨2, 2⟩] 1
    Order.column 0).1

/-- C5: for every valid input, invoking the scale kernel on `C` with
scalar `beta` (over a grid covering the logical `M × N` region) and then
an atomic-accumulation kernel (`tn` or `tt`) yields at every logical
output element `(r, c)` the single computation
`beta * C_old + alpha * op(A) * op(B)`, where `C_old` is `C`'s contents
before the scale kernel ran; `op(A) * op(B)` is the contraction over the
`K` stored rows of `A`, read from `B` in the layout the respective
kernel assumes. -/
theorem claim_C5 (conj : R → R) (h0 : conj 0 = 0)
    (hadd : ∀ x y : R, conj (x + y) = conj x + conj y)
    (trans_A trans_B : Operation) (order : Order) (gx gy M N K : Nat)
    (alpha beta : R) (rp ci : List Nat) (v B Bt : List R)
    (ldb ldbt ldc base : Nat) (C : List R)
    (hld : ldOK order M N ldc C.length) (hgx : M ≤ gx) (hgy : N ≤ gy)
    {r c : Nat} (hr : r < M) (hc : c < N) :
    (csrmmtn_general_device conj trans_A trans_B K N alpha rp ci v B ldb
        beta (csrmm_scale_device gx gy M N beta C ldc order) ldc order
        base).getD (cIdx order ldc r c) 0
      = beta * C.getD (cIdx order ldc r c) 0
        + alpha * ((List.range K).map (fun k =>
            opVal conj trans_A (csrEntry rp ci v base k r)
              * opVal conj trans_B (B.getD (k + c * ldb) 0))).sum
    ∧ (csrmmtt_general_device conj trans_A trans_B K N alpha rp ci v Bt
        ldbt beta (csrmm_scale_device gx gy M N beta C ldc order) ldc order
        base).getD (cIdx order ldc r c) 0
      = beta * C.getD (cIdx order ldc r c) 0
        + alpha * ((List.range K).map (fun k =>
            opVal conj trans_A (csrEntry rp ci v base k r)
              * opVal conj trans_B (Bt.getD (ldbt * k + c) 0))).sum := by
  constructor
  · rw [csrmmtn_scaled_correct conj h0 hadd trans_A trans_B gx gy M N K
      alpha rp ci v B ldb beta C ldc order base hld hr hc hgx hgy]
    unfold referenceGemmEntry
    ring
  · rw [csrmmtt_scaled_correct conj h0 hadd trans_A trans_B gx gy M N K
      alpha rp ci v Bt ldbt beta C ldc order base hld hr hc hgx hgy]
    unfold referenceGemmEntry
    ring

/-- Witness for C5 at a concrete input (`M = N = K = 2`, `beta = 2`,
`alpha = 1`): the `tn` conjunct evaluated after applying `claim_C5`. -/
theorem claim_C5_witness :
    (csrmmtn_general_device (R := Int) id Operation.none Operation.none 2
        2 1 [0, 2, 3] [0, 1, 1] [1, 2, 3] [5, 7, 6, 8] 2 2
        (csrmm_scale_device (R := Int) 2 2 2 2 2 [1, 1, 1, 1] 2
          Order.column) 2 Order.column 0).getD (cIdx Order.column 2 1 0) 0
      = 2 * [(1 : Int), 1, 1, 1].getD (cIdx Order.column 2 1 0) 0
        + 1 * ((List.range 2).map (fun k =>
            opVal (R := Int) id Operation.none
                (csrEntry [0, 2, 3] [0, 1, 1] [1, 2, 3] 0 k 1)
              * opVal (R := Int) id Operation.none
                ([(5 : Int), 7, 6, 8].getD (k + 0 * 2) 0))).sum :=
  (claim_C5 (R := Int) id rfl (fun _ _ => rfl) Operation.none
    Operation.none Order.column 2 2 2 2 2 1 2 [0, 2, 3] [0, 1, 1]
    [1, 2, 3] [5, 7, 6, 8] [5, 6, 7, 8] 2 2 2 0 [1, 1, 1, 1] (by decide)
    (by decide) (by decide) (by decide) (by decide)).1

/-- C6: the `tt` kernel differs from the `tn` kernel only in how it
addresses `B`: whenever the buffer `Bt` handed to `tt`, read in its
transposed layout `Bt[ldbt * row + cid]`, agrees on the logical `K × N`
extent with the buffer `B` handed to `tn`, read as `B[row + cid * ldbt]`,
the two kernels make exactly the same additions into `C` and produce the
same output buffer — for every `C`, scalars, transpose modes, order flag
and index base. -/
theorem claim_C6 (conj : R → R) (trans_A trans_B : Operation) (K N : Nat)
    (alpha : R) (rp ci : List Nat) (v B Bt : List R) (ldb ldbt : Nat)
    (beta : R) (C : List R) (ldc : Nat) (order : Order) (base : Nat)
    (hB : ∀ k < K, ∀ n' < N, Bt.getD (ldbt * k + n') 0
      = B.getD (k + n' * ldb) 0) :
    csrmmtt_general_device conj trans_A trans_B K N alpha rp ci v Bt ldbt
        beta C ldc order base
      = csrmmtn_general_device conj trans_A trans_B K N alpha rp ci v B
        ldb beta C ldc order base := by
  unfold csrmmtt_general_device csrmmtn_general_device
  refine mapWithIdx_congr _ _ (fun p a => ?_) 0 C
  simp only
  by_cases hn : cCol order ldc p < N
  · rw [if_pos hn, if_pos hn]
    refine congrArg (fun s => a + s) ?_
    unfold csrmmtt_add csrmmtn_add
    refine congrArg List.sum (List.map_congr_left (fun row hrow =>
      congrArg List.sum (List.map_congr_left (fun j _ => ?_))))
    simp only [hB row (List.mem_range.mp hrow) (cCol order ldc p) hn]
  · rw [if_neg hn, if_neg hn]

/-- Witness for C6 at a concrete input: `tt` on the row-layout buffer
equals `tn` on the column-layout buffer of the same logical `B`. -/
theorem claim_C6_witness :
    csrmmtt_general_device (R := Int) id Operation.none Operation.none 2 2
        1 [0, 2, 3] [0, 1, 1] [1, 2, 3] [5, 6, 7, 8] 2 0 [4, 3, 2, 1] 2
        Order.column 0
      = csrmmtn_general_device (R := Int) id Operation.none Operation.none
        2 2 1 [0, 2, 3] [0, 1, 1] [1, 2, 3] [5, 7, 6, 8] 2 0 [4, 3, 2, 1]
        2 Order.column 0 :=
  claim_C6 (R := Int) id Operation.none Operation.none 2 2 1 [0, 2, 3]
    [0, 1, 1] [1, 2, 3] [5, 7, 6, 8] [5, 6, 7, 8] 2 2 0 [4, 3, 2, 1] 2
    Order.column 0 (by decide)

theorem csrmm_store_zero_sum (alpha beta cOld : R) :
    csrmm_store alpha beta 0 cOld = beta * cOld := by
  unfold csrmm_store rocsparse_fma
  split_ifs with hb
  · rw [hb]; ring
  · ring

theorem tileStarts_self (WF rs : Nat) : tileStarts WF rs rs = [] := by
  unfold tileStarts numChunks
  rcases Nat.eq_zero_or_pos WF with h | h
  · subst h; simp
  · rw [Nat.sub_self, Nat.zero_add, Nat.div_eq_of_lt (by omega)]
    rfl

theorem csrmmnn_sum_self (conj : R → R) (trans_A trans_B : Operation)
    (ci : List Nat) (v B : List R) (base rs colB WF : Nat) :
    csrmmnn_sum conj trans_A trans_B ci v B base rs rs colB WF = 0 := by
  unfold csrmmnn_sum
  rw [tileStarts_self]
  rfl

theorem csrmmnt_sum_self (conj : R → R) (trans_A trans_B : Operation)
    (ci : List Nat) (v B : List R) (base ldb rs ncol col WF : Nat) :
    csrmmnt_sum conj trans_A trans_B ci v B base ldb rs rs ncol col WF = 0 := by
  unfold csrmmnt_sum
  rw [tileStarts_self]
  rfl

/-- C7: for every row of `A` with zero nonzero entries
(`row_ptr[row] = row_ptr[row + 1]`), the `nn` and `nt` kernels set each
element of the corresponding row of `C` to `beta * C_old` — hence, when
`beta = 1`, leave it unchanged in value — for any `alpha`. -/
theorem claim_C7 (conj : R → R) (WF : Nat) (trans_A trans_B : Operation)
    (order : Order) (M N : Nat) (alpha beta : R) (rp ci : List Nat)
    (v B : List R) (ldb ldc base : Nat) (C : List R)
    (hld : ldOK order M N ldc C.length) {row c : Nat} (hr : row < M)
    (hc : c < N) (hempty : rp.getD row 0 = rp.getD (row + 1) 0) :
    ((csrmmnn_general_device conj WF trans_A trans_B M N alpha rp ci v B
        ldb beta C ldc order base).getD (cIdx order ldc row c) 0
      = beta * C.getD (cIdx order ldc row c) 0)
    ∧ (beta = 1 →
      (csrmmnn_general_device conj WF trans_A trans_B M N alpha rp ci v B
        ldb beta C ldc order base).getD (cIdx order ldc row c) 0
      = C.getD (cIdx order ldc row c) 0)
    ∧ ((csrmmnt_general_device conj WF trans_A trans_B 0 N M alpha rp ci v
        B ldb beta C ldc order base).getD (cIdx order ldc row c) 0
      = beta * C.getD (cIdx order ldc row c) 0)
    ∧ (beta = 1 →
      (csrmmnt_general_device conj WF trans_A trans_B 0 N M alpha rp ci v B
        ldb beta C ldc order base).getD (cIdx order ldc row c) 0
      = C.getD (cIdx order ldc row c) 0) := by
  have h₁ : (csrmmnn_general_device conj WF trans_A trans_B M N alpha rp ci
      v B ldb beta C ldc order base).getD (cIdx order ldc row c) 0
      = beta * C.getD (cIdx order ldc row c) 0 := by
    rw [csrmmnn_getD conj WF trans_A trans_B M N alpha rp ci v B ldb beta C
      ldc order base hld hr hc, hempty, csrmmnn_sum_self,
      csrmm_store_zero_sum]
  have h₂ : (csrmmnt_general_device conj WF trans_A trans_B 0 N M alpha rp
      ci v B ldb beta C ldc order base).getD (cIdx order ldc row c) 0
      = beta * C.getD (cIdx order ldc row c) 0 := by
    rw [csrmmnt_getD conj WF trans_A trans_B 0 N M alpha rp ci v B ldb beta
      C ldc order base hld hr (Nat.zero_le c) hc, hempty,
      csrmmnt_sum_self, csrmm_store_zero_sum]
  exact ⟨h₁, fun hb => by rw [h₁, hb, one_mul], h₂,
    fun hb => by rw [h₂, hb, one_mul]⟩

/-- Witness for C7: row `1` of a 2-row matrix with
`row_ptr = [0, 2, 2]` has no nonzeros; its output element `(1, 1)` is
`beta * C_old` with `beta = 5`. -/
theorem claim_C7_witness :
    (csrmmnn_general_device (R := Int) id 2 Operation.none Operation.none
        2 2 1 [0, 2, 2] [0, 1] [1, 2] [5, 7, 6, 8] 2 5 [1, 2, 3, 4] 2
        Order.column 0).getD (cIdx Order.column 2 1 1) 0
      = 5 * [(1 : Int), 2, 3, 4].getD (cIdx Order.column 2 1 1) 0 :=
  (claim_C7 (R := Int) id 2 Operation.none Operation.none Order.column 2 2
    1 5 [0, 2, 2] [0, 1] [1, 2] [5, 7, 6, 8] 2 2 0 [1, 2, 3, 4]
    (by decide) (by decide) (by decide) (by decide)).1

/-- C8 counterexample: an invocation of the `tn` kernel on an output of
`M = 1` rows whose transposed-`A` operand stores `K = 2` rows (a valid
shape: `op(A)` is `1 × 2`, `A` is stored `2 × 1` with a row-pointer
sequence of length `K + 1 = 3`) reads `csr_row_ptr` at index `2 > M = 1`
(source lines 296–299 loop `row < K` and read `csr_row_ptr[row + 1]`),
refuting the claim that no kernel variant accesses `row_ptr` at an index
greater than `M`. -/
theorem claim_C8_counterexample :
    ¬(∀ i ∈ csrmmtn_row_ptr_reads 2, i ≤ 1) := by decide

/-- C8 amended: the `nn` and `nt` kernels read the row-pointer sequence
only at indices `0..M` (their loops process rows `< M`); the `tn` and
`tt` kernels read it only at indices `0..K` — matching the supplied
sequence, which has length `K + 1` when `A`'s transpose mode makes the
kernel iterate `A`'s stored rows as contraction slices. -/
theorem claim_C8_amended (M K : Nat) :
    (∀ i ∈ csrmmnn_row_ptr_reads M, i ≤ M)
    ∧ (∀ i ∈ csrmmnt_row_ptr_reads M, i ≤ M)
    ∧ (∀ i ∈ csrmmtn_row_ptr_reads K, i ≤ K)
    ∧ (∀ i ∈ csrmmtt_row_ptr_reads K, i ≤ K) := by
  refine ⟨fun i hi => ?_, fun i hi => ?_, fun i hi => ?_, fun i hi => ?_⟩ <;>
  · first
    | (rcases List.mem_flatMap.mp hi with ⟨row, hrow, hmem⟩
       have hlt := List.mem_range.mp hrow
       rcases List.mem_cons.mp hmem with h | h
       · omega
       · rcases List.mem_cons.mp h with h' | h'
         · omega
         · simp at h')

/-- Witness for C8's amended statement: index `2` read by the `nn`
kernel with `M = 3` is at most `3`. -/
theorem claim_C8_amended_witness : (2 : Nat) ≤ 3 :=
  (claim_C8_amended 3 5).1 2 (by decide)

theorem mem_tileStarts_lower {WF rs re j : Nat} (hj : j ∈ tileStarts WF rs re) :
    rs ≤ j := by
  rcases List.mem_range'.mp hj with ⟨t, _, ht⟩
  omega

theorem tileStarts_bounds {WF rs re j : Nat} (hWF : 0 < WF)
    (hj : j ∈ tileStarts WF rs re) : rs < re := by
  by_contra h
  rw [tileStarts, numChunks_eq_zero hWF (by omega)] at hj
  simp at hj

/-- C9: in the `nn` and `nt` kernels every shared-scratch tile slot whose
source index lies at or beyond the row's end is padded with column index
`0` and value `0`; consequently (first two conjuncts) the tiled
accumulation equals the exact dot product over only the row's real
nonzero positions `rs ≤ j < re` — the padded slots contribute exactly
zero — and (last two conjuncts) every `B` index the tile loops read,
those of padded slots included, is below `ldb * N` for the `nn` layout
and below `ldbt * K` for the `nt` layout, i.e. inside the host-validated
buffer for the respective kernel. -/
theorem claim_C9 (conj : R → R) (trans_A trans_B : Operation)
    (ci : List Nat) (v B Bt : List R) (base WF rs re N K c ldb ldbt : Nat)
    (hWF : 0 < WF) (hc : c < N)
    (hci : ∀ j ∈ List.range' rs (re - rs), ci.getD j 0 - base < K)
    (hKldb : K ≤ ldb) (hNldbt : N ≤ ldbt) :
    csrmmnn_sum conj trans_A trans_B ci v B base rs re (c * ldb) WF
      = ((List.range' rs (re - rs)).map (fun j =>
          aEntry conj trans_A v j
            * opVal conj trans_B
              (B.getD ((ci.getD j 0 - base) + c * ldb) 0))).sum
    ∧ csrmmnt_sum conj trans_A trans_B ci v Bt base ldbt rs re N c WF
      = ((List.range' rs (re - rs)).map (fun j =>
          aEntry conj trans_A v j
            * opVal conj trans_B
              (Bt.getD (c + ldbt * (ci.getD j 0 - base)) 0))).sum
    ∧ (∀ idx ∈ csrmmnn_B_reads ci base WF rs re (c * ldb), idx < ldb * N)
    ∧ (∀ idx ∈ csrmmnt_B_reads ci base WF ldbt rs re c, idx < ldbt * K) := by
  refine ⟨csrmmnn_sum_eq conj trans_A trans_B ci v B base rs re (c * ldb)
    WF hWF,
    csrmmnt_sum_eq conj trans_A trans_B ci v Bt base ldbt rs re N c WF hWF
      hc, fun idx hidx => ?_, fun idx hidx => ?_⟩
  · rcases List.mem_flatMap.mp hidx with ⟨j, hj, hmem⟩
    rcases List.mem_map.mp hmem with ⟨i, _, heq⟩
    have hjlo := mem_tileStarts_lower hj
    have hKpos : 0 < K := by
      have hre := tileStarts_bounds hWF hj
      have := hci rs (List.mem_range'.mpr ⟨0, by omega, by omega⟩)
      omega
    by_cases hk : j + i < re
    · have hmem' : j + i ∈ List.range' rs (re - rs) :=
        List.mem_range'.mpr ⟨j + i - rs, by omega, by omega⟩
      have hcb := hci (j + i) hmem'
      rw [if_pos hk] at heq
      calc idx = (ci.getD (j + i) 0 - base) + c * ldb := heq.symm
        _ < ldb + c * ldb := by omega
        _ = ldb * (c + 1) := by ring
        _ ≤ ldb * N := Nat.mul_le_mul_left _ (by omega)
    · rw [if_neg hk] at heq
      calc idx = 0 + c * ldb := heq.symm
        _ < ldb + c * ldb := by omega
        _ = ldb * (c + 1) := by ring
        _ ≤ ldb * N := Nat.mul_le_mul_left _ (by omega)
  · rcases List.mem_flatMap.mp hidx with ⟨j, hj, hmem⟩
    rcases List.mem_map.mp hmem with ⟨i, _, heq⟩
    have hjlo := mem_tileStarts_lower hj
    have hKpos : 0 < K := by
      have hre := tileStarts_bounds hWF hj
      have := hci rs (List.mem_range'.mpr ⟨0, by omega, by omega⟩)
      omega
    by_cases hk : j + i < re
    · have hmem' : j + i ∈ List.range' rs (re - rs) :=
        List.mem_range'.mpr ⟨j + i - rs, by omega, by omega⟩
      have hcb := hci (j + i) hmem'
      rw [if_pos hk] at heq
      calc idx = c + ldbt * (ci.getD (j + i) 0 - base) := heq.symm
        _ < ldbt + ldbt * (ci.getD (j + i) 0 - base) := by omega
        _ = ldbt * ((ci.getD (j + i) 0 - base) + 1) := by ring
        _ ≤ ldbt * K := Nat.mul_le_mul_left _ (by omega)
    · rw [if_neg hk] at heq
      calc idx = c + 0 := heq.symm
        _ < ldbt * 1 := by omega
        _ ≤ ldbt * K := Nat.mul_le_mul_left _ (by omega)

/-- Witness for C9 at a concrete input with a genuinely padded tile:
`WF = 2` over the three nonzeros `rs = 0, re = 3` leaves the last tile
slot padded; the tiled sum still equals the exact dot product (first
conjunct, applied from `claim_C9`). -/
theorem claim_C9_witness :
    csrmmnn_sum (R := Int) id Operation.none Operation.none [0, 1, 1]
        [1, 2, 3] [5, 7, 6, 8] 0 0 3 (1 * 2) 2
      = ((List.range' 0 (3 - 0)).map (fun j =>
          aEntry (R := Int) id Operation.none [1, 2, 3] j
            * opVal (R := Int) id Operation.none
              ([(5 : Int), 7, 6, 8].getD (([0, 1, 1].getD j 0 - 0) + 1 * 2)
                0))).sum :=
  (claim_C9 (R := Int) id Operation.none Operation.none [0, 1, 1]
    [1, 2, 3] [5, 7, 6, 8] [5, 6, 7, 8] 0 2 0 3 2 2 1 2 2 (by decide)
    (by decide) (by decide) (by decide) (by decide)).1

/-- C10: the scale kernel mutates only buffer elements whose logical row
index is below `m` and whose logical column index is below `n`.  For
every invocation with a valid leading dimension (`m ≤ ld` in column
order, `n ≤ ld` in row order) and any launch grid, the output buffer has
the same length and every position outside the logical `m × n` region —
leading-dimension padding included — holds its old value. -/
theorem claim_C10 (gx gy m n : Nat) (beta : R) (data : List R) (ld : Nat)
    (order : Order) (hinj : ldInj order m n ld) :
    (csrmm_scale_device gx gy m n beta data ld order).length = data.length
    ∧ ∀ p : Nat, m ≤ cRow order ld p ∨ n ≤ cCol order ld p →
      (csrmm_scale_device gx gy m n beta data ld order).getD p 0
        = data.getD p 0 :=
  ⟨csrmm_scale_length gx gy m n beta data ld order,
    fun _ hout =>
      csrmm_scale_getD_out gx gy m n beta data ld order hinj hout⟩

/-- Witness for C10: scaling a `2 × 2` region held in a buffer with
leading dimension `3` leaves the padding position `2` (logical row `2`)
unchanged. -/
theorem claim_C10_witness :
    (csrmm_scale_device (R := Int) 4 4 2 2 10 [1, 1, 1, 1, 1, 1] 3
        Order.column).getD 2 0 = [(1 : Int), 1, 1, 1, 1, 1].getD 2 0 :=
  (claim_C10 (R := Int) 4 4 2 2 10 [1, 1, 1, 1, 1, 1] 3 Order.column
    (by decide)).2 2 (by decide)

end Rocsparse
